import Mathlib

/-
Verification of the core storage, B-tree, and query-execution algorithms of the
gsuneido database engine, via a shallow embedding of the relevant Go functions.

Each section embeds one component:
  * `Stor`       — chunked append-only store allocation (stor.go `Stor.Alloc`)
  * `StateRoot`  — state-root record layout, write/read round trip (db19/state.go)
  * `RepairScan` — backward repair scan (db19 `Repair`, `prevState`, `checkState`)
  * `Btree`      — `Merge(fb, mb)` of an fbtree with an mbtree, and the fbtree builder
  * `UnionMerge` — the union-merge bidirectional iterator (query `Union.getMerge`)
  * `Summarize`  — summarize aggregation (query/summarize.go)
  * `TempIndex`  — the multi-source side-heap encoding (query/tempindex.go)
-/

namespace GS

/-! ## Stor: chunked storage allocation (stor.go)

The Go `Stor` keeps `chunksize = 1 <<< shift` (a power of two) and an atomic
`size` high-water mark.  `Alloc` is modelled single-threaded: the CAS publish
always succeeds (the retry loop re-runs the same pure computation).  Arithmetic
is on `Nat`; the Go code uses `uint64`, which agrees with `Nat` as long as
`size + chunksize` does not exceed `2^64` (the store tracks file bytes, far
below that), so no wrap-around is modelled. -/

namespace Stor

/-- The store state that `Alloc` reads and writes: the chunk-size exponent
(`chunksize` must be a power of two) and the current used size. -/
structure St where
  shift : Nat
  size : Nat
  deriving Repr, DecidableEq

/-- `s.chunksize` is `1 << shift` in the Go code. -/
def chunksize (s : St) : Nat := 1 <<< s.shift

/-- `offsetToChunk`: `int(offset >> s.shift)`. -/
def offsetToChunk (s : St) (offset : Nat) : Nat := offset >>> s.shift

/-- `chunkToOffset`: `uint64(chunk) << s.shift`. -/
def chunkToOffset (s : St) (chunk : Nat) : Nat := chunk <<< s.shift

/-- Length of the slice returned by `Stor.Data(offset)`: from `offset` to the
end of its chunk (`c[offset&(s.chunksize-1):]`). -/
def dataLen (s : St) (offset : Nat) : Nat := chunksize s - offset % chunksize s

/-- `Stor.Alloc(n)`, sequentially.  Returns `(offset, sliceLen, newStor)`.
`assert.That(0 < n && n <= int(s.chunksize))` failing is fatal, modelled as
`none`.  The body follows the Go exactly: tentative `newsize = size + n`; if
the allocation would straddle a chunk boundary (`chunk >= nchunks`), restart it
at `chunkToOffset(chunk)`.  The returned slice is `s.Data(offset)[:n:n]`,
recorded here by its length `n`. -/
def alloc (s : St) (n : Nat) : Option (Nat × Nat × St) :=
  if 0 < n ∧ n ≤ chunksize s then
    let oldsize := s.size
    let offset := oldsize
    let newsize := offset + n
    let chunk := offsetToChunk s newsize
    let nchunks := offsetToChunk s (oldsize + chunksize s - 1)
    if nchunks ≤ chunk then
      let offset := chunkToOffset s chunk
      let newsize := offset + n
      some (offset, n, { s with size := newsize })
    else
      some (offset, n, { s with size := newsize })
  else
    none

theorem chunksize_pos (s : St) : 0 < chunksize s := by
  simp [chunksize, Nat.shiftLeft_eq, Nat.pos_pow_of_pos]

theorem chunksize_eq (s : St) : chunksize s = 2 ^ s.shift := by
  simp [chunksize, Nat.shiftLeft_eq]

theorem offsetToChunk_eq (s : St) (offset : Nat) :
    offsetToChunk s offset = offset / 2 ^ s.shift := by
  simp [offsetToChunk, Nat.shiftRight_eq_div_pow]

theorem chunkToOffset_eq (s : St) (chunk : Nat) :
    chunkToOffset s chunk = chunk * 2 ^ s.shift := by
  simp [chunkToOffset, Nat.shiftLeft_eq]

theorem alloc_eq (s : St) (n : Nat) (h1 : 0 < n) (h2 : n ≤ 2 ^ s.shift) :
    alloc s n =
      if (s.size + 2 ^ s.shift - 1) / 2 ^ s.shift ≤ (s.size + n) / 2 ^ s.shift then
        some ((s.size + n) / 2 ^ s.shift * 2 ^ s.shift, n,
          ⟨s.shift, (s.size + n) / 2 ^ s.shift * 2 ^ s.shift + n⟩)
      else some (s.size, n, ⟨s.shift, s.size + n⟩) := by
  rw [alloc, if_pos ⟨h1, (chunksize_eq s) ▸ h2⟩]
  simp only [offsetToChunk_eq, chunkToOffset_eq, chunksize_eq]

/-- Claim C3: for every successful `Stor.Alloc(n)` with `0 < n ≤ chunksize`, the
returned range `[offset, offset+n)` lies entirely within a single chunk; when
the current chunk lacks room the allocation starts at the next chunk's
beginning; the returned writable slice has length exactly `n` (and fits in the
`Data` slice); and alloc fails when `n > chunksize`. -/
theorem alloc_chunk_local (shift size n : Nat) (hn : 0 < n) :
    (n ≤ 2 ^ shift →
      ∃ off : Nat, alloc ⟨shift, size⟩ n = some (off, n, ⟨shift, off + n⟩) ∧
        off / 2 ^ shift = (off + n - 1) / 2 ^ shift ∧
        n ≤ dataLen ⟨shift, size⟩ off ∧
        (2 ^ shift < size % 2 ^ shift + n →
          off = (size / 2 ^ shift + 1) * 2 ^ shift)) ∧
    (2 ^ shift < n → alloc ⟨shift, size⟩ n = none) := by
  have hcspos : 0 < 2 ^ shift := Nat.pos_pow_of_pos _ (by norm_num)
  constructor
  · intro hle
    rw [alloc_eq ⟨shift, size⟩ n hn hle]
    by_cases hstr :
        (size + 2 ^ shift - 1) / 2 ^ shift ≤ (size + n) / 2 ^ shift
    · -- straddle branch: the allocation restarts at a chunk boundary
      rw [if_pos hstr]
      refine ⟨(size + n) / 2 ^ shift * 2 ^ shift, rfl, ?_, ?_, ?_⟩
      · -- chunk-local: the whole range is inside chunk `(size+n)/2^shift`
        have hmod : (size + n) / 2 ^ shift * 2 ^ shift % 2 ^ shift = 0 :=
          Nat.mul_mod_left _ _
        have hdiv : (size + n) / 2 ^ shift * 2 ^ shift / 2 ^ shift =
            (size + n) / 2 ^ shift := Nat.mul_div_cancel _ hcspos
        rw [hdiv]
        have h1 : (size + n) / 2 ^ shift * 2 ^ shift + n - 1 =
            (size + n) / 2 ^ shift * 2 ^ shift + (n - 1) := by omega
        rw [h1, Nat.mul_comm, Nat.mul_add_div hcspos]
        have : (n - 1) / 2 ^ shift = 0 := Nat.div_eq_of_lt (by omega)
        omega
      · -- the Data slice at a chunk start has the full chunk available
        have hmod : (size + n) / 2 ^ shift * 2 ^ shift % 2 ^ shift = 0 :=
          Nat.mul_mod_left _ _
        simp only [dataLen, chunksize_eq, hmod]
        omega
      · -- lacks room: the offset is the start of the next chunk
        intro hroom
        have hq : size + n = 2 ^ shift * (size / 2 ^ shift) +
            (size % 2 ^ shift + n) := by
          have := Nat.div_add_mod size (2 ^ shift)
          omega
        have : (size + n) / 2 ^ shift = size / 2 ^ shift + 1 := by
          rw [hq, Nat.mul_add_div hcspos]
          have hmodlt : size % 2 ^ shift < 2 ^ shift := Nat.mod_lt _ hcspos
          have : (size % 2 ^ shift + n) / 2 ^ shift = 1 := by
            apply Nat.div_eq_of_lt_le <;> omega
          omega
        rw [this]
    · -- no straddle: the allocation stays at `size` inside the current chunk
      rw [if_neg hstr]
      refine ⟨size, rfl, ?_, ?_, ?_⟩
      all_goals {
        have hlt : (size + n) / 2 ^ shift < (size + 2 ^ shift - 1) / 2 ^ shift := by
          omega
        have hsz : 0 < size := by
          rcases Nat.eq_zero_or_pos size with h0 | h0
          · exfalso
            subst h0
            have e1 : (0 + 2 ^ shift - 1) / 2 ^ shift = 0 :=
              Nat.div_eq_of_lt (by omega)
            rw [e1] at hlt
            exact absurd hlt (Nat.not_lt_zero _)
          · exact h0
        have h2 : size + 2 ^ shift - 1 = (size - 1) + 2 ^ shift := by omega
        have h3 : (size + 2 ^ shift - 1) / 2 ^ shift = (size - 1) / 2 ^ shift + 1 := by
          rw [h2, Nat.add_div_right _ hcspos]
        have h4 : (size + n) / 2 ^ shift ≤ (size - 1) / 2 ^ shift := by omega
        have h5 : (size - 1) / 2 ^ shift ≤ size / 2 ^ shift :=
          Nat.div_le_div_right (by omega)
        have h6 : size / 2 ^ shift ≤ (size + n - 1) / 2 ^ shift :=
          Nat.div_le_div_right (by omega)
        have h7 : (size + n - 1) / 2 ^ shift ≤ (size + n) / 2 ^ shift :=
          Nat.div_le_div_right (by omega)
        have heq : size / 2 ^ shift = (size + n - 1) / 2 ^ shift := by omega
        -- since `size` and `size+n-1` share a chunk, the tail has room for `n`
        have hroomle : size % 2 ^ shift + n ≤ 2 ^ shift := by
          have hm := Nat.div_add_mod size (2 ^ shift)
          have hm2 := Nat.div_add_mod (size + n - 1) (2 ^ shift)
          rw [← heq] at hm2
          have hmlt : (size + n - 1) % 2 ^ shift < 2 ^ shift :=
            Nat.mod_lt _ hcspos
          omega
        first
          | exact heq
          | (simp only [dataLen, chunksize_eq]; omega)
          | (intro hroom; omega)
      }
  · intro hgt
    have hcond : ¬(0 < n ∧ n ≤ chunksize ⟨shift, size⟩) := by
      rw [chunksize_eq]
      show ¬(0 < n ∧ n ≤ 2 ^ shift)
      omega
    rw [alloc, if_neg hcond]

/-- Witness for C3 at `shift = 6` (chunk size 64), `size = 60`, `n = 20`:
the allocation is bumped to offset 64, the start of the next chunk. -/
theorem alloc_chunk_local_witness :
    0 < 20 ∧
      ((20 ≤ 2 ^ 6 →
        ∃ off : Nat, alloc ⟨6, 60⟩ 20 = some (off, 20, ⟨6, off + 20⟩) ∧
          off / 2 ^ 6 = (off + 20 - 1) / 2 ^ 6 ∧
          20 ≤ dataLen ⟨6, 60⟩ off ∧
          (2 ^ 6 < 60 % 2 ^ 6 + 20 → off = (60 / 2 ^ 6 + 1) * 2 ^ 6)) ∧
      (2 ^ 6 < 20 → alloc ⟨6, 60⟩ 20 = none)) :=
  ⟨by norm_num, alloc_chunk_local 6 60 20 (by norm_num)⟩

end Stor

/-! ## Byte-level encodings shared by the state root and the temp index -/

/-- Big-endian encoding of `v` into exactly `w` bytes (most significant first). -/
def beBytes : Nat → Nat → List Nat
  | 0, _ => []
  | w + 1, v => v / 256 ^ w % 256 :: beBytes w v

/-- Big-endian decoding of a byte list. -/
def beVal (bs : List Nat) : Nat := bs.foldl (fun a b => a * 256 + b) 0

theorem beBytes_length (w v : Nat) : (beBytes w v).length = w := by
  induction w generalizing v with
  | zero => rfl
  | succ w ih => simp [beBytes, ih]

theorem beVal_foldl (w v a : Nat) :
    List.foldl (fun a b => a * 256 + b) a (beBytes w v) =
      a * 256 ^ w + v % 256 ^ w := by
  induction w generalizing a with
  | zero => simp [beBytes, Nat.mod_one]
  | succ w ih =>
    rw [beBytes, List.foldl_cons, ih]
    have h256 : (256 : Nat) ^ (w + 1) = 256 ^ w * 256 := by ring
    have hmod : v % 256 ^ (w + 1) = v % 256 ^ w + 256 ^ w * (v / 256 ^ w % 256) := by
      rw [h256, Nat.mod_mul]
    rw [hmod]
    ring

theorem beVal_beBytes (w v : Nat) (h : v < 256 ^ w) :
    beVal (beBytes w v) = v := by
  rw [beVal, beVal_foldl]
  simp [Nat.mod_eq_of_lt h]

theorem take_append_of_length {α : Type} (l r : List α) (w : Nat)
    (h : l.length = w) : (l ++ r).take w = l := by
  subst h
  exact List.take_left l r

theorem drop_append_of_length {α : Type} (l r : List α) (w : Nat)
    (h : l.length = w) : (l ++ r).drop w = r := by
  subst h
  exact List.drop_left l r

/-- `stor.WriteSmallOffset`: a 5-byte big-endian offset.  Modelled from the
spec ("meta-offsets(Noffsets × 5)"); the `stor` small-offset codec itself is
not among the sources. -/
def writeSmallOffset (off : Nat) : List Nat := beBytes 5 off

/-- `stor.ReadSmallOffset` on a byte stream (reads the first 5 bytes). -/
def readSmallOffset (bs : List Nat) : Nat := beVal (bs.take 5)

theorem readSmallOffset_writeSmallOffset (off : Nat) (rest : List Nat)
    (h : off < 2 ^ 40) :
    readSmallOffset (writeSmallOffset off ++ rest) = off := by
  rw [readSmallOffset, writeSmallOffset,
    take_append_of_length _ _ _ (beBytes_length 5 off)]
  exact beVal_beBytes 5 off (by norm_num at h ⊢; omega)

/-! ## State root records (db19/state.go `writeState` / `readState`)

`meta.Noffsets` is a build-time constant; it is the parameter `noffs` here.
`util/cksum` is not among the sources; modelled from the spec ("the trailing
checksum protects everything preceding it including magic1") as a 32-bit fold
appended as 4 big-endian bytes. -/

namespace StateRoot

/-- `magic1 = "\x01\x23\x45\x67\x89\xab\xcd\xef"`. -/
def magic1 : List Nat := [0x01, 0x23, 0x45, 0x67, 0x89, 0xab, 0xcd, 0xef]

/-- `magic2 = "\xfe\xdc\xba\x98\x76\x54\x32\x10"`. -/
def magic2 : List Nat := [0xfe, 0xdc, 0xba, 0x98, 0x76, 0x54, 0x32, 0x10]

/-- Modelled from the spec: the `util/cksum` 32-bit checksum function (the
package is not among the sources; the particular hash is irrelevant, only that
write and read agree on it). -/
def cksumFn (bs : List Nat) : Nat :=
  bs.foldl (fun a b => (a * 31 + b + 1) % 2 ^ 32) 0

/-- `stateLen = len(magic1) + dateSize + meta.Noffsets*stor.SmallOffsetLen +
len(magic2) + cksum.Len`. -/
def stateLen (noffs : Nat) : Nat := 8 + 8 + noffs * 5 + 8 + 4

/-- `magic2at = stateLen - len(magic2)`. -/
def magic2at (noffs : Nat) : Nat := stateLen noffs - 8

/-- `writeState`: `magic1 || unix-time(8 BE) || offsets(noffs × 5) || cksum(4)
|| magic2`, the checksum covering everything before it including `magic1`. -/
def writeState (offsets : List Nat) (t : Nat) : List Nat :=
  let body := magic1 ++ beBytes 8 t ++ (offsets.map writeSmallOffset).flatten
  body ++ beBytes 4 (cksumFn body) ++ magic2

/-- The `assert.That(string(buf[:i]) == magic1)` check of `readState`. -/
def goodMagic1 (bs : List Nat) : Bool := bs.take 8 == magic1

/-- The `cksum.MustCheck(buf[:magic2at])` check: the last 4 bytes of
`buf[:magic2at]` must be the checksum of the rest. -/
def goodCksum (noffs : Nat) (bs : List Nat) : Bool :=
  let pre := bs.take (magic2at noffs)
  pre.drop (16 + noffs * 5) == beBytes 4 (cksumFn (pre.take (16 + noffs * 5)))

/-- The `assert.That(string(buf[magic2at:magic2at+len(magic2)]) == magic2)`
check of `readState`. -/
def goodMagic2 (noffs : Nat) (bs : List Nat) : Bool :=
  (bs.take (stateLen noffs)).drop (magic2at noffs) == magic2

/-- Reads `noffs` 5-byte offsets from a byte stream. -/
def readOffsets : Nat → List Nat → List Nat
  | 0, _ => []
  | k + 1, bs => readSmallOffset bs :: readOffsets k (bs.drop 5)

/-- `readState`: takes `stateLen` bytes at the state offset, asserts `magic1`,
the checksum, and `magic2` (an assertion failure panics, modelled as `none`;
likewise a record truncated before `stateLen` bytes), then decodes the unix
time and the meta offsets. -/
def readState (noffs : Nat) (bs : List Nat) : Option (List Nat × Nat) :=
  if stateLen noffs ≤ bs.length ∧ goodMagic1 bs ∧ goodCksum noffs bs ∧
      goodMagic2 noffs bs then
    some (readOffsets noffs (bs.drop 16), beVal ((bs.drop 8).take 8))
  else
    none

theorem join_smallOffsets_length (offsets : List Nat) :
    ((offsets.map writeSmallOffset).flatten).length = offsets.length * 5 := by
  induction offsets with
  | nil => simp
  | cons o rest ih =>
    simp [ih, writeSmallOffset, beBytes_length]
    omega

theorem readOffsets_round (offsets : List Nat) (rest : List Nat)
    (hlt : ∀ o ∈ offsets, o < 2 ^ 40) :
    readOffsets offsets.length ((offsets.map writeSmallOffset).flatten ++ rest) =
      offsets := by
  induction offsets generalizing rest with
  | nil => rfl
  | cons o os ih =>
    have ho : o < 2 ^ 40 := hlt o (by simp)
    have hflat : (((o :: os).map writeSmallOffset).flatten) ++ rest =
        writeSmallOffset o ++ ((os.map writeSmallOffset).flatten ++ rest) := by
      simp
    rw [List.length_cons, readOffsets, hflat]
    congr 1
    · exact readSmallOffset_writeSmallOffset o _ ho
    · rw [drop_append_of_length _ _ _
        (show (writeSmallOffset o).length = 5 from beBytes_length 5 o)]
      exact ih _ (fun x hx => hlt x (by simp [hx]))

theorem magic2at_eq (noffs : Nat) : magic2at noffs = 20 + noffs * 5 := by
  simp [magic2at, stateLen]
  omega

theorem writeState_assoc (offsets : List Nat) (t : Nat) :
    writeState offsets t =
      magic1 ++ (beBytes 8 t ++ ((offsets.map writeSmallOffset).flatten ++
        (beBytes 4 (cksumFn (magic1 ++ beBytes 8 t ++
          (offsets.map writeSmallOffset).flatten)) ++ magic2))) := by
  simp only [writeState, List.append_assoc]

theorem writeState_split (offsets : List Nat) (t : Nat) :
    writeState offsets t =
      ((magic1 ++ beBytes 8 t ++ (offsets.map writeSmallOffset).flatten) ++
        beBytes 4 (cksumFn (magic1 ++ beBytes 8 t ++
          (offsets.map writeSmallOffset).flatten))) ++ magic2 := by
  simp only [writeState, List.append_assoc]

theorem writeState_length (noffs : Nat) (offsets : List Nat) (t : Nat)
    (hlen : offsets.length = noffs) :
    (writeState offsets t).length = stateLen noffs := by
  have hflatlen : ((offsets.map writeSmallOffset).flatten).length = noffs * 5 := by
    rw [join_smallOffsets_length, hlen]
  rw [writeState_split, List.length_append, List.length_append,
    List.length_append, List.length_append, hflatlen, beBytes_length,
    beBytes_length, stateLen]
  show 8 + 8 + noffs * 5 + 4 + 8 = 8 + 8 + noffs * 5 + 8 + 4
  omega

/-- Claim C4: writing a state root and reading it back from the record yields
exactly the written meta offsets and unix time; the record has the layout
`magic1(8) || unix-time(8 BE) || meta-offsets(noffs × 5) || cksum(4) ||
magic2(8)` with the checksum covering everything before it including `magic1`;
and `readState` fails on any record whose magic strings or checksum do not
match. -/
theorem readState_writeState (noffs : Nat) (offsets : List Nat) (t : Nat)
    (hlen : offsets.length = noffs) (hoff : ∀ o ∈ offsets, o < 2 ^ 40)
    (ht : t < 2 ^ 64) :
    readState noffs (writeState offsets t) = some (offsets, t) ∧
    (writeState offsets t).length = stateLen noffs ∧
    (writeState offsets t).take 8 = magic1 ∧
    (writeState offsets t).drop (magic2at noffs) = magic2 ∧
    (∀ bs : List Nat,
      ¬(goodMagic1 bs ∧ goodCksum noffs bs ∧ goodMagic2 noffs bs) →
      readState noffs bs = none) := by
  have hm1 : (magic1).length = 8 := rfl
  have hflatlen : ((offsets.map writeSmallOffset).flatten).length = noffs * 5 := by
    rw [join_smallOffsets_length, hlen]
  have hbodylen :
      (magic1 ++ beBytes 8 t ++ (offsets.map writeSmallOffset).flatten).length =
        16 + noffs * 5 := by
    rw [List.length_append, List.length_append, hm1, beBytes_length, hflatlen]
  have hwlen : (writeState offsets t).length = stateLen noffs :=
    writeState_length noffs offsets t hlen
  have hpre :
      (writeState offsets t).take (magic2at noffs) =
        (magic1 ++ beBytes 8 t ++ (offsets.map writeSmallOffset).flatten) ++
          beBytes 4 (cksumFn (magic1 ++ beBytes 8 t ++
            (offsets.map writeSmallOffset).flatten)) := by
    rw [writeState_split]
    apply take_append_of_length
    rw [List.length_append, hbodylen, beBytes_length, magic2at_eq]
    omega
  have htake8 : (writeState offsets t).take 8 = magic1 := by
    rw [writeState_assoc]
    exact take_append_of_length _ _ _ hm1
  have hdropm2 : (writeState offsets t).drop (magic2at noffs) = magic2 := by
    rw [writeState_split]
    apply drop_append_of_length
    rw [List.length_append, hbodylen, beBytes_length, magic2at_eq]
    omega
  have hg1 : goodMagic1 (writeState offsets t) = true := by
    simp [goodMagic1, htake8]
  have hgc : goodCksum noffs (writeState offsets t) = true := by
    rw [goodCksum]
    simp only [hpre]
    rw [drop_append_of_length _ _ _ hbodylen,
      take_append_of_length _ _ _ hbodylen]
    simp
  have htakeall : (writeState offsets t).take (stateLen noffs) =
      writeState offsets t :=
    List.take_of_length_le (le_of_eq hwlen)
  have hg2 : goodMagic2 noffs (writeState offsets t) = true := by
    simp [goodMagic2, htakeall, hdropm2]
  refine ⟨?_, hwlen, htake8, hdropm2, ?_⟩
  · rw [readState, if_pos ⟨le_of_eq hwlen.symm, hg1, hgc, hg2⟩]
    have hdrop16 : (writeState offsets t).drop 16 =
        (offsets.map writeSmallOffset).flatten ++
          (beBytes 4 (cksumFn (magic1 ++ beBytes 8 t ++
            (offsets.map writeSmallOffset).flatten)) ++ magic2) := by
      have hw16 : writeState offsets t =
          (magic1 ++ beBytes 8 t) ++
            ((offsets.map writeSmallOffset).flatten ++
              (beBytes 4 (cksumFn (magic1 ++ beBytes 8 t ++
                (offsets.map writeSmallOffset).flatten)) ++ magic2)) := by
        simp only [writeState, List.append_assoc]
      rw [hw16]
      apply drop_append_of_length
      rw [List.length_append, hm1, beBytes_length]
    have hdrop8 : ((writeState offsets t).drop 8).take 8 = beBytes 8 t := by
      rw [writeState_assoc, drop_append_of_length _ _ _ hm1]
      exact take_append_of_length _ _ _ (beBytes_length 8 t)
    have ht8 : beVal (((writeState offsets t).drop 8).take 8) = t := by
      rw [hdrop8]
      exact beVal_beBytes 8 t (by norm_num at ht ⊢; omega)
    rw [hdrop16, ht8, ← hlen, readOffsets_round offsets _ hoff]
  · intro bs hbad
    rw [readState, if_neg]
    intro hcond
    exact hbad ⟨hcond.2.1, hcond.2.2.1, hcond.2.2.2⟩

/-- Witness for C4 with `noffs = 2`, `offsets = [3, 7]`, `t = 42`. -/
theorem readState_writeState_witness :
    ([3, 7] : List Nat).length = 2 ∧ (∀ o ∈ ([3, 7] : List Nat), o < 2 ^ 40) ∧
      (42 : Nat) < 2 ^ 64 ∧
      readState 2 (writeState [3, 7] 42) = some ([3, 7], 42) :=
  ⟨by decide, by decide, by norm_num,
    (readState_writeState 2 [3, 7] 42 (by decide) (by decide) (by norm_num)).1⟩

end StateRoot

/-! ## Summarize aggregation (dbms/query/summarize.go) -/

namespace Summarize

/-- The fragment of the `Value` domain that aggregation distinguishes:
numbers (which `OpAdd`/`OpDiv` handle, modelled as rationals matching
Suneido's exact decimal arithmetic) and non-numeric values, whose addition
panics. -/
inductive Val where
  | num (q : Rat)
  | other (s : String)
  deriving Repr, DecidableEq

/-- `Zero`. -/
def zeroV : Val := .num 0

/-- `OpAdd`: `none` models the panic raised on a value that cannot be added. -/
def opAdd : Val → Val → Option Val
  | .num a, .num b => some (.num (a + b))
  | _, _ => none

/-- `OpDiv`: `none` models the panic raised on a non-numeric operand. -/
def opDiv : Val → Val → Option Val
  | .num a, .num b => some (.num (a / b))
  | _, _ => none

/-- `sumTotal.add`: `defer func() { recover() }()` suppresses a panic of
`OpAdd`, leaving `total` unchanged for that row. -/
def sumTotalAdd (total : Val) (val : Val) : Val :=
  match opAdd total val with
  | some t => t
  | none => total

/-- The `sumTotal` state after adding each row's `on` value in turn
(`total` starts at `Zero`). -/
def sumTotalRun (vals : List Val) : Val := vals.foldl sumTotalAdd zeroV

/-- `sumAverage.add`: `sum.count++` happens BEFORE the `defer recover()`
guard, so the count is incremented even when the addition panics. -/
def sumAverageAdd (st : Nat × Val) (val : Val) : Nat × Val :=
  (st.1 + 1,
    match opAdd st.2 val with
    | some t => t
    | none => st.2)

/-- The `sumAverage` state `(count, total)` after adding each row. -/
def sumAverageRun (vals : List Val) : Nat × Val :=
  vals.foldl sumAverageAdd (0, zeroV)

/-- `sumAverage.result`: `OpDiv(sum.total, IntVal(sum.count))`. -/
def sumAverageResult (vals : List Val) : Option Val :=
  opDiv (sumAverageRun vals).2 (.num ((sumAverageRun vals).1 : Rat))

/-- Whether a row's value is addable (its failure is what `recover` hides). -/
def isNum : Val → Bool
  | .num _ => true
  | .other _ => false

theorem sumAverageAdd_eq (st : Nat × Val) (v : Val) :
    sumAverageAdd st v = (st.1 + 1, sumTotalAdd st.2 v) := rfl

theorem foldl_total_filter (q : Rat) (vals : List Val) :
    vals.foldl sumTotalAdd (.num q) =
      (vals.filter isNum).foldl sumTotalAdd (.num q) := by
  induction vals generalizing q with
  | nil => rfl
  | cons v vs ih =>
    cases v with
    | num r =>
      rw [List.foldl_cons, List.filter_cons]
      simp only [isNum, if_pos]
      rw [List.foldl_cons]
      exact ih (q + r)
    | other s =>
      rw [List.foldl_cons, List.filter_cons]
      simp only [isNum]
      rw [if_neg (by simp)]
      show vs.foldl sumTotalAdd (sumTotalAdd (.num q) (.other s)) = _
      rw [show sumTotalAdd (.num q) (.other s) = .num q from rfl]
      exact ih q

theorem foldl_average_split (c : Nat) (t : Val) (vals : List Val) :
    vals.foldl sumAverageAdd (c, t) =
      (c + vals.length, vals.foldl sumTotalAdd t) := by
  induction vals generalizing c t with
  | nil => simp
  | cons v vs ih =>
    rw [List.foldl_cons, List.foldl_cons, sumAverageAdd_eq, ih]
    simp
    omega

/-- Counterexample to claim C7 as stated: on the rows `[2, "x", 4]` the
`average` aggregate suppresses the failing row's addition but still counts it,
yielding 6/3 = 2, while skipping the failing row entirely would yield
6/2 = 3. -/
theorem average_not_skip :
    sumAverageResult [Val.num 2, Val.other "x", Val.num 4] = some (Val.num 2) ∧
    sumAverageResult
        (List.filter isNum [Val.num 2, Val.other "x", Val.num 4]) =
      some (Val.num 3) ∧
    sumAverageResult [Val.num 2, Val.other "x", Val.num 4] ≠
      sumAverageResult
        (List.filter isNum [Val.num 2, Val.other "x", Val.num 4]) := by
  have h1 : sumAverageResult [Val.num 2, Val.other "x", Val.num 4] =
      some (Val.num 2) := by
    simp [sumAverageResult, sumAverageRun, sumAverageAdd, opAdd, opDiv, zeroV]
    norm_num
  have h2 : sumAverageResult
        (List.filter isNum [Val.num 2, Val.other "x", Val.num 4]) =
      some (Val.num 3) := by
    simp [sumAverageResult, sumAverageRun, sumAverageAdd, opAdd, opDiv, zeroV,
      isNum, List.filter]
    norm_num
  refine ⟨h1, h2, ?_⟩
  rw [h1, h2]
  intro h
  have : (2 : Rat) = 3 := by
    injection h with h
    injection h
  norm_num at this

/-- Claim C7 (amended): per-row failures inside `total` and `average` are
suppressed (the add functions are total, never propagating the panic); the
`total` result equals the total over the rows whose addition succeeds (the
failing rows are skipped); the `average` excludes failing rows from the sum but
still counts them, so its result is (sum of addable values) / (number of ALL
rows), not the as-if-skipped average. -/
theorem total_average_suppress (vals : List Val) :
    sumTotalRun vals = sumTotalRun (vals.filter isNum) ∧
    (sumAverageRun vals).1 = vals.length ∧
    (sumAverageRun vals).2 = sumTotalRun (vals.filter isNum) := by
  have h1 : sumTotalRun vals = sumTotalRun (vals.filter isNum) :=
    foldl_total_filter 0 vals
  have h2 : sumAverageRun vals = (vals.length, sumTotalRun vals) := by
    rw [sumAverageRun, foldl_average_split]
    simp [sumTotalRun]
  exact ⟨h1, by rw [h2], by rw [h2]; exact h1⟩

/-! ### sumMap strategy (C8) -/

/-- The query optimization modes. -/
inductive Mode where
  | read
  | cursor
  | update
  deriving Repr, DecidableEq

/-- The four summarize strategies. -/
inductive SumStrategy where
  | sumSeq
  | sumMap
  | sumIdx
  | sumTbl
  deriving Repr, DecidableEq

/-- Modelled from the spec: `mapLimit` (≈1M entries; its defining file is not
among the sources, and its exact value does not matter to the claims). -/
def mapLimit : Nat := 1000000

/-- `Summarize.mapCost`, reduced to the decision the claim is about: whether a
`sumMap` approach is offered at all.  `impossible` is modelled as `none`.  Note
the `mode` parameter is NOT consulted anywhere in the body — the Go code
carries `//FIXME technically, map should only be allowed in ReadMode`.  The
cost numbers (which delegate to the source query's `Optimize`) are irrelevant
to the claim and not modelled. -/
def mapCost (mode : Mode) (indexRequired : Bool) (nrows : Nat) :
    Option SumStrategy :=
  if indexRequired ∨ mapLimit - mapLimit / 3 < nrows then none
  else some .sumMap

/-- `Summarize.buildMap`, abstracted to the sequence of by-column group keys of
the source rows: each new distinct group is `Put` into the hash map, and
`log.Panicf("summarize-map too large")` fires (`none`) as soon as
`sumMap.Size() > mapLimit`.  `seen` is the list of groups in the map. -/
def buildMap (seen : List Nat) : List Nat → Option (List Nat)
  | [] => some seen
  | g :: gs =>
    if g ∈ seen then buildMap seen gs
    else if mapLimit < seen.length + 1 then none
    else buildMap (seen ++ [g]) gs

theorem buildMap_none_iff (gs : List Nat) (seen : List Nat)
    (hnd : seen.Nodup) (hle : seen.length ≤ mapLimit) :
    buildMap seen gs = none ↔ mapLimit < (seen.toFinset ∪ gs.toFinset).card := by
  induction gs generalizing seen with
  | nil =>
    simp only [buildMap, List.toFinset_nil, Finset.union_empty]
    rw [List.toFinset_card_of_nodup hnd]
    simp
    omega
  | cons g gs ih =>
    rw [buildMap]
    by_cases hmem : g ∈ seen
    · rw [if_pos hmem, ih seen hnd hle]
      have : seen.toFinset ∪ (g :: gs).toFinset = seen.toFinset ∪ gs.toFinset := by
        rw [List.toFinset_cons, Finset.union_insert,
          Finset.insert_eq_self.mpr
            (Finset.mem_union_left _ (by simp [hmem]))]
      rw [this]
    · rw [if_neg hmem]
      by_cases hful : mapLimit < seen.length + 1
      · rw [if_pos hful]
        constructor
        · intro _
          have hsub : insert g seen.toFinset ⊆ seen.toFinset ∪ (g :: gs).toFinset := by
            intro x hx
            simp only [Finset.mem_insert, Finset.mem_union, List.mem_toFinset,
              List.mem_cons] at hx ⊢
            tauto
          have hcard : seen.length + 1 ≤ (seen.toFinset ∪ (g :: gs).toFinset).card := by
            have h1 : (insert g seen.toFinset).card = seen.length + 1 := by
              rw [Finset.card_insert_of_not_mem (by simp [hmem]),
                List.toFinset_card_of_nodup hnd]
            calc seen.length + 1 = (insert g seen.toFinset).card := h1.symm
              _ ≤ _ := Finset.card_le_card hsub
          omega
        · intro _
          rfl
      · rw [if_neg hful]
        have hnd2 : (seen ++ [g]).Nodup := by
          simp [List.nodup_append, hnd, hmem]
        have hle2 : (seen ++ [g]).length ≤ mapLimit := by
          simp
          omega
        rw [ih (seen ++ [g]) hnd2 hle2]
        have : (seen ++ [g]).toFinset ∪ gs.toFinset =
            seen.toFinset ∪ (g :: gs).toFinset := by
          ext x
          simp only [Finset.mem_union, List.mem_toFinset, List.mem_append,
            List.mem_cons, List.mem_singleton, List.not_mem_nil, or_false]
          tauto
        rw [this]

/-- Claim C8: the Go `mapCost` offers the `sumMap` hash-aggregation strategy
even in update mode (the mode parameter is ignored; the claim's
"only in read mode" is the intent recorded by the FIXME but not enforced), and
`buildMap` raises an error exactly when the number of distinct by-groups
exceeds `mapLimit` (so execution never silently produces more than `mapLimit`
groups). -/
theorem mapCost_ignores_mode :
    mapCost Mode.update false 10 = some SumStrategy.sumMap ∧
    mapCost Mode.read false 10 = mapCost Mode.update false 10 ∧
    (∀ gs : List Nat,
      buildMap [] gs = none ↔ mapLimit < gs.toFinset.card) := by
  refine ⟨by decide, rfl, ?_⟩
  intro gs
  have h := buildMap_none_iff gs [] (by simp) (by simp [mapLimit])
  simpa using h

/-! ### NewSummarize aggregate ordering (C10) -/

/-- One aggregate: result column name, operation, aggregated column. -/
structure Agg where
  col : String
  op : String
  aon : String
  deriving Repr, DecidableEq

/-- The default-naming rule of `NewSummarize`: a missing result column name
becomes `"count"` for count (empty `on`), else `op_on`. -/
def mkAgg (col op onCol : String) : Agg :=
  ⟨if col = "" then (if onCol = "" then "count" else op ++ "_" ++ onCol)
   else col,
   op, onCol⟩

/-- The parallel (cols, ops, ons) lists after default naming, as a single list
of aggregates. -/
def namedAggs (cols ops ons : List String) : List Agg :=
  List.zipWith (fun (co : String × String) (onCol : String) =>
      mkAgg co.1 co.2 onCol)
    (cols.zip ops) ons

/-- `NewSummarize`'s reordering: `sort.Stable(su)` with
`Less(i,j) = ons[i] < ons[j]`, swapping cols/ops/ons in parallel.
`sort.Stable` is specified to sort stably, and a stable sort by a total
preorder is unique, so it is modelled by insertion sort (which inserts before
strictly-greater keys only and is therefore stable). -/
def newSummarizeAggs (cols ops ons : List String) : List Agg :=
  (namedAggs cols ops ons).insertionSort (fun x y => x.aon ≤ y.aon)

theorem orderedInsert_filter_key (a : Agg) (l : List Agg) (v : String) :
    (List.orderedInsert (fun x y => x.aon ≤ y.aon) a l).filter
        (fun x => x.aon == v) =
      if a.aon = v then
        a :: l.filter (fun x => x.aon == v)
      else l.filter (fun x => x.aon == v) := by
  induction l with
  | nil =>
    by_cases h : a.aon = v <;>
      simp [List.orderedInsert, List.filter_cons, h, beq_iff_eq]
  | cons b l ih =>
    rw [List.orderedInsert]
    by_cases hle : a.aon ≤ b.aon
    · rw [if_pos hle]
      by_cases h : a.aon = v <;>
        simp [List.filter_cons, h, beq_iff_eq]
    · rw [if_neg hle]
      have hne : ¬(b.aon = v ∧ a.aon = v) := by
        rintro ⟨hb, ha⟩
        exact hle (le_of_eq (ha.trans hb.symm))
      rw [List.filter_cons, ih, List.filter_cons]
      by_cases hb : b.aon = v
      · have ha : ¬a.aon = v := fun ha2 => hne ⟨hb, ha2⟩
        simp [hb, ha]
      · by_cases ha : a.aon = v <;> simp [hb, ha]

theorem insertionSort_filter_key (l : List Agg) (v : String) :
    (l.insertionSort (fun x y => x.aon ≤ y.aon)).filter (fun x => x.aon == v) =
      l.filter (fun x => x.aon == v) := by
  induction l with
  | nil => rfl
  | cons a l ih =>
    have hunfold : (a :: l).insertionSort (fun x y => x.aon ≤ y.aon) =
        List.orderedInsert (fun x y => x.aon ≤ y.aon) a
          (l.insertionSort (fun x y => x.aon ≤ y.aon)) := rfl
    rw [hunfold, orderedInsert_filter_key, List.filter_cons]
    by_cases h : a.aon = v
    · rw [if_pos h, if_pos (by simp [h]), ih]
    · rw [if_neg h, if_neg (by simp [h]), ih]

/-- Claim C10: `NewSummarize` stably sorts the parallel aggregate lists in
ascending order of the aggregated column (`ons`): the result is sorted by
`aon`, and for every value `v` the subsequence of aggregates on `v` is exactly
the (default-named) input subsequence, in the original order — together these
characterize the unique stable sort.  Default naming (`count` / `op_on`) is
applied by `mkAgg` before the reordering. -/
theorem newSummarize_sorted_stable (cols ops ons : List String) :
    List.Sorted (fun x y : Agg => x.aon ≤ y.aon)
        (newSummarizeAggs cols ops ons) ∧
    (∀ v : String,
      (newSummarizeAggs cols ops ons).filter (fun x => x.aon == v) =
        (namedAggs cols ops ons).filter (fun x => x.aon == v)) ∧
    (∀ c o n : String, mkAgg c o n =
      ⟨if c = "" then (if n = "" then "count" else o ++ "_" ++ n) else c,
       o, n⟩) := by
  refine ⟨?_, ?_, fun c o n => rfl⟩
  · have : IsTotal Agg (fun x y => x.aon ≤ y.aon) :=
      ⟨fun a b => le_total a.aon b.aon⟩
    have : IsTrans Agg (fun x y => x.aon ≤ y.aon) :=
      ⟨fun a b c hab hbc => le_trans hab hbc⟩
    exact List.sorted_insertionSort _ _
  · intro v
    exact insertionSort_filter_key _ v

end Summarize

/-! ## TempIndex multi-source side-heap encoding (dbms/query/tempindex.go)

`TempIndex.multi` stores each multi-source row in a side heap: one 5-byte slot
per record — a bare store offset for database records (`Off > 0`), or
`multiMask|size` followed by the record bytes for derived records (`Off == 0`)
— and `multiIter.getRec` decodes the heap bytes back.  The heap allocation is
modelled by the encoded byte list itself (the `heap.Alloc(n)` + `copy` writes
exactly these bytes at the returned offset, and `heap.Data(off)` reads them
back). -/

namespace TempIndex

/-- A `DbRec`: the record bytes and the database offset (0 for derived). -/
structure DbRec where
  record : List Nat
  off : Nat
  deriving Repr, DecidableEq

/-- `multiMask = 0xffff000000` (bits 24..39 of a 5-byte offset). -/
def multiMask : Nat := 0xffff000000

/-- `derivedMaxSize = 8 * 1024`. -/
def derivedMaxSize : Nat := 8 * 1024

/-- The heap size `n` of one row: `nrecs * SmallOffsetLen`, plus
`len(dbrec.Record)` for each derived (`Off == 0`) record. -/
def rowSize (row : List DbRec) : Nat :=
  row.foldl (fun n r => if r.off = 0 then n + r.record.length else n)
    (row.length * 5)

/-- The bytes written for one record slot: `WriteSmallOffset(buf, dbrec.Off)`
for a database record, else `WriteSmallOffset(buf, multiMask|size)` followed by
the record contents.  (`multiMask`'s low 24 bits are zero, so for
`size < 2^24` the OR `multiMask|size` equals `multiMask + size`.) -/
def encRec (r : DbRec) : List Nat :=
  if 0 < r.off then writeSmallOffset r.off
  else writeSmallOffset (multiMask + r.record.length) ++ r.record

/-- `TempIndex.multi`'s per-row store: panics (`none`) when the encoding
exceeds `derivedMaxSize`, else writes the slots into the heap. -/
def encodeRow (row : List DbRec) : Option (List Nat) :=
  if derivedMaxSize < rowSize row then none
  else some ((row.map encRec).flatten)

/-- `multiIter.getRec`: reads a 5-byte value; below `multiMask` it is a
database offset whose record is re-fetched from the transaction; otherwise the
low bits (`off &^ multiMask`, which on a 5-byte value is `off % 2^24`) are the
size of the derived record stored inline, returned with offset 0.  Returns
(rest of buffer, record, offset). -/
def getRec (tran : Nat → List Nat) (buf : List Nat) :
    List Nat × List Nat × Nat :=
  let off := readSmallOffset buf
  let buf2 := buf.drop 5
  if off < multiMask then (buf2, tran off, off)
  else
    let size := off % 2 ^ 24
    (buf2.drop size, buf2.take size, 0)

/-- `multiIter.get(off)`: decodes `nrecs` record slots into a row. -/
def getRow (tran : Nat → List Nat) : Nat → List Nat → List DbRec
  | 0, _ => []
  | k + 1, buf =>
    let r := getRec tran buf
    ⟨r.2.1, r.2.2⟩ :: getRow tran k r.1

theorem rowSize_foldl (row : List DbRec) (init : Nat) :
    row.foldl (fun n r => if r.off = 0 then n + r.record.length else n) init =
      init + (row.map (fun r => if r.off = 0 then r.record.length else 0)).sum := by
  induction row generalizing init with
  | nil => simp
  | cons r rest ih =>
    rw [List.foldl_cons, ih, List.map_cons, List.sum_cons]
    by_cases h : r.off = 0 <;> simp [h] <;> omega

theorem rec_size_le_rowSize (row : List DbRec) (r : DbRec) (hmem : r ∈ row)
    (hz : r.off = 0) : r.record.length ≤ rowSize row := by
  rw [rowSize, rowSize_foldl]
  have hle : r.record.length ≤
      (row.map (fun r => if r.off = 0 then r.record.length else 0)).sum := by
    have hx : (if r.off = 0 then r.record.length else 0) ∈
        row.map (fun r => if r.off = 0 then r.record.length else 0) :=
      List.mem_map_of_mem _ hmem
    have := List.single_le_sum
      (l := row.map (fun r => if r.off = 0 then r.record.length else 0))
      (fun x _ => Nat.zero_le x) _ hx
    simpa [hz] using this
  omega

theorem getRow_enc (tran : Nat → List Nat) (row : List DbRec)
    (rest : List Nat) (hoff : ∀ r ∈ row, r.off < multiMask)
    (htr : ∀ r ∈ row, 0 < r.off → tran r.off = r.record)
    (hsz : ∀ r ∈ row, r.off = 0 → r.record.length < 2 ^ 24) :
    getRow tran row.length ((row.map encRec).flatten ++ rest) = row := by
  induction row generalizing rest with
  | nil => rfl
  | cons r rows ih =>
    have hro : r.off < multiMask := hoff r (by simp)
    have hflat : ((r :: rows).map encRec).flatten ++ rest =
        encRec r ++ ((rows.map encRec).flatten ++ rest) := by
      simp
    rw [List.length_cons, hflat, getRow]
    by_cases hpos : 0 < r.off
    · -- database record: stored as its bare offset, re-fetched from `tran`
      have henc : encRec r = writeSmallOffset r.off := by
        rw [encRec, if_pos hpos]
      rw [henc]
      have hread : readSmallOffset (writeSmallOffset r.off ++
          ((rows.map encRec).flatten ++ rest)) = r.off :=
        readSmallOffset_writeSmallOffset r.off _
          (lt_trans hro (by norm_num [multiMask]))
      have hdrop : (writeSmallOffset r.off ++
          ((rows.map encRec).flatten ++ rest)).drop 5 =
          (rows.map encRec).flatten ++ rest :=
        drop_append_of_length _ _ _ (beBytes_length 5 r.off)
      rw [getRec]
      simp only [hread, hdrop, if_pos hro]
      congr 1
      · rw [htr r (by simp) hpos]
      · exact ih _ (fun x hx => hoff x (by simp [hx]))
          (fun x hx => htr x (by simp [hx]))
          (fun x hx => hsz x (by simp [hx]))
    · -- derived record: stored inline as size|multiMask plus its bytes
      have hz : r.off = 0 := by omega
      have hlen : r.record.length < 2 ^ 24 := hsz r (by simp) hz
      have henc : encRec r =
          writeSmallOffset (multiMask + r.record.length) ++ r.record := by
        rw [encRec, if_neg hpos]
      rw [henc, List.append_assoc]
      have hread : readSmallOffset (writeSmallOffset (multiMask + r.record.length)
          ++ (r.record ++ ((rows.map encRec).flatten ++ rest))) =
          multiMask + r.record.length :=
        readSmallOffset_writeSmallOffset _ _
          (by norm_num [multiMask] at hlen ⊢; omega)
      have hdrop : (writeSmallOffset (multiMask + r.record.length) ++
          (r.record ++ ((rows.map encRec).flatten ++ rest))).drop 5 =
          r.record ++ ((rows.map encRec).flatten ++ rest) :=
        drop_append_of_length _ _ _ (beBytes_length 5 _)
      rw [getRec]
      simp only [hread, hdrop]
      rw [if_neg (by omega)]
      have hmod : (multiMask + r.record.length) % 2 ^ 24 = r.record.length := by
        have : multiMask % 2 ^ 24 = 0 := by norm_num [multiMask]
        omega
      simp only [hmod]
      rw [take_append_of_length _ _ _ rfl, drop_append_of_length _ _ _ rfl]
      congr 1
      · rw [← hz]
      · exact ih _ (fun x hx => hoff x (by simp [hx]))
          (fun x hx => htr x (by simp [hx]))
          (fun x hx => hsz x (by simp [hx]))

/-- Claim C9: a multi-source row whose database offsets are all below the
`multiMask` sentinel and whose heap encoding is at most `derivedMaxSize`
round-trips through the side heap: database records (`Off > 0`) are stored as
their bare offset and re-fetched from the transaction, derived records
(`Off == 0`) are stored inline tagged `size|multiMask` and come back
byte-identical with offset 0; a row whose encoding exceeds `derivedMaxSize`
raises an error instead of being stored. -/
theorem multi_roundtrip (tran : Nat → List Nat) (row : List DbRec)
    (hoff : ∀ r ∈ row, r.off < multiMask)
    (htr : ∀ r ∈ row, 0 < r.off → tran r.off = r.record) :
    (rowSize row ≤ derivedMaxSize →
      encodeRow row = some ((row.map encRec).flatten) ∧
      getRow tran row.length ((row.map encRec).flatten) = row) ∧
    (derivedMaxSize < rowSize row → encodeRow row = none) := by
  constructor
  · intro hle
    have hsz : ∀ r ∈ row, r.off = 0 → r.record.length < 2 ^ 24 := by
      intro r hmem hz
      have h1 := rec_size_le_rowSize row r hmem hz
      have : rowSize row ≤ derivedMaxSize := hle
      norm_num [derivedMaxSize] at this ⊢
      omega
    refine ⟨by rw [encodeRow, if_neg (by omega)], ?_⟩
    have := getRow_enc tran row [] hoff htr hsz
    simpa using this
  · intro hgt
    rw [encodeRow, if_pos hgt]

/-- Witness for C9: a two-record row — one database record at offset 7, one
derived record `[9, 9]` stored inline. -/
theorem multi_roundtrip_witness :
    (∀ r ∈ [DbRec.mk [1, 2] 7, DbRec.mk [9, 9] 0], r.off < multiMask) ∧
    (rowSize [DbRec.mk [1, 2] 7, DbRec.mk [9, 9] 0] ≤ derivedMaxSize →
      encodeRow [DbRec.mk [1, 2] 7, DbRec.mk [9, 9] 0] =
        some (([DbRec.mk [1, 2] 7, DbRec.mk [9, 9] 0].map encRec).flatten) ∧
      getRow (fun o => if o = 7 then [1, 2] else [])
          [DbRec.mk [1, 2] 7, DbRec.mk [9, 9] 0].length
          (([DbRec.mk [1, 2] 7, DbRec.mk [9, 9] 0].map encRec).flatten) =
        [DbRec.mk [1, 2] 7, DbRec.mk [9, 9] 0]) :=
  ⟨by decide,
    (multi_roundtrip (fun o => if o = 7 then [1, 2] else [])
      [DbRec.mk [1, 2] 7, DbRec.mk [9, 9] 0]
      (by decide) (by decide)).1⟩

end TempIndex

/-! ## Btree: `Merge(fb, mb)` (database/btree/merge.go)

Only `merge.go` is among the sources; the fbtree and mbtree structures are
modelled from the spec: an fbtree is an ordered, immutable key→offset map
(modelled as an association list), `fbtree.Update(fn)` returns a new fbtree
with `fn`'s insertions applied to an update buffer, and `fbupdate.Insert`
adds/overwrites one key.  An mbtree holds the recent insertions and deletions
of one index (spec §4.3: `insert(key, offset)`, `delete(key, offset)`).
`mbtree.ForEach(fn)` visits the insert entries in key order with
`fn(key, off)`; delete markers are not visited — `Merge` carries the comment
`// TODO deletes` and only ever calls `up.Insert`. -/

namespace Btree

/-- `fbtree.lookup(key) -> offset | 0`, on the association-list model
(`none` for absent). -/
def fbLookup : List (String × Nat) → String → Option Nat
  | [], _ => none
  | (k1, o1) :: rest, k => if k = k1 then some o1 else fbLookup rest k

/-- Modelled from the spec: `fbupdate.Insert(key, off)` — ordered insert,
overwriting an existing entry with the same key. -/
def fbInsert (fb : List (String × Nat)) (key : String) (off : Nat) :
    List (String × Nat) :=
  match fb with
  | [] => [(key, off)]
  | (k1, o1) :: rest =>
    if key < k1 then (key, off) :: (k1, o1) :: rest
    else if key = k1 then (key, off) :: rest
    else (k1, o1) :: fbInsert rest key off

/-- Modelled from the spec: an mbtree holds the pending insertions (key,
offset) and the pending delete markers of one index. -/
structure Mbtree where
  inserts : List (String × Nat)
  deletes : List String
  deriving Repr, DecidableEq

/-- `Merge(fb, mb)`: `fb.Update(func(up){ mb.ForEach(func(key, off){
up.Insert(key, off) }) })` — inserts every entry `ForEach` yields; the
`// TODO deletes` markers are never consulted. -/
def Merge (fb : List (String × Nat)) (mb : Mbtree) : List (String × Nat) :=
  mb.inserts.foldl (fun up e => fbInsert up e.1 e.2) fb

theorem fbLookup_fbInsert (fb : List (String × Nat)) (key : String)
    (off : Nat) (k : String) :
    fbLookup (fbInsert fb key off) k =
      if k = key then some off else fbLookup fb k := by
  induction fb with
  | nil =>
    by_cases h : k = key <;> simp [fbInsert, fbLookup, h]
  | cons e rest ih =>
    obtain ⟨k1, o1⟩ := e
    rw [fbInsert]
    by_cases h1 : key < k1
    · rw [if_pos h1]
      by_cases h : k = key <;> simp [fbLookup, h]
    · rw [if_neg h1]
      by_cases h2 : key = k1
      · rw [if_pos h2]
        by_cases h : k = key
        · simp [fbLookup, h]
        · have hk1 : k ≠ k1 := fun hc => h (hc.trans h2.symm)
          simp [fbLookup, h, hk1]
      · rw [if_neg h2]
        by_cases h : k = k1
        · have hne : ¬k = key := fun hc => h2 (hc.symm.trans h)
          have hk1 : ¬k1 = key := fun hc => h2 hc.symm
          simp [fbLookup, h, hne, hk1]
        · simp [fbLookup, h, ih]

theorem fbLookup_none_of_not_mem (l : List (String × Nat)) (k : String)
    (h : k ∉ l.map Prod.fst) : fbLookup l k = none := by
  induction l with
  | nil => rfl
  | cons e rest ih =>
    obtain ⟨k1, o1⟩ := e
    rw [List.map_cons] at h
    have h1 : ¬k = k1 := fun hc => h (by simp [hc])
    have h2 : k ∉ rest.map Prod.fst := fun hc => h (by simp [hc])
    rw [fbLookup, if_neg h1]
    exact ih h2

/-- Counterexample to claim C1 as stated: with `fb = [("a", 1)]` and an mbtree
carrying a delete marker for `"a"`, `Merge` leaves the fbtree entry for `"a"`
present (offset 1), not absent — `merge.go` has `// TODO deletes`. -/
theorem merge_ignores_deletes :
    ("a" ∈ (Mbtree.mk [] ["a"]).deletes) ∧
    fbLookup (Merge [("a", 1)] (Mbtree.mk [] ["a"])) "a" = some 1 := by
  constructor
  · simp
  · rfl

/-- Claim C1 (amended): `Merge(fb, mb)` returns a new fbtree reflecting mb's
INSERT entries — every key in `mb.inserts` is present with mb's offset, taking
precedence over a same-key entry of fb, and every other key keeps fb's entry —
while leaving fb and mb unmodified (the model is pure; the Go builds a new
tree).  Delete markers are NOT applied: the matching fbtree entries remain
(deletes are a `// TODO` in merge.go). -/
theorem merge_applies_inserts (fb : List (String × Nat)) (mb : Mbtree)
    (k : String) (hnd : (mb.inserts.map Prod.fst).Nodup) :
    fbLookup (Merge fb mb) k =
      match fbLookup mb.inserts k with
      | some o => some o
      | none => fbLookup fb k := by
  obtain ⟨ins, dels⟩ := mb
  simp only [Merge] at *
  induction ins generalizing fb with
  | nil => rfl
  | cons e rest ih =>
    obtain ⟨k0, o0⟩ := e
    simp only [List.map_cons, List.nodup_cons] at hnd
    rw [List.foldl_cons]
    rw [ih (fbInsert fb k0 o0) hnd.2]
    by_cases h : k = k0
    · have hnone : fbLookup rest k = none := by
        rw [h]
        exact fbLookup_none_of_not_mem rest k0 hnd.1
      have hcons : fbLookup ((k0, o0) :: rest) k = some o0 := by
        rw [fbLookup, if_pos h]
      rw [hnone, hcons]
      show fbLookup (fbInsert fb k0 o0) k = some o0
      rw [fbLookup_fbInsert, if_pos h]
    · cases hrest : fbLookup rest k with
      | some o =>
        have hcons : fbLookup ((k0, o0) :: rest) k = some o := by
          rw [fbLookup, if_neg h, hrest]
        rw [hcons]
      | none =>
        have hcons : fbLookup ((k0, o0) :: rest) k = none := by
          rw [fbLookup, if_neg h, hrest]
        rw [hcons]
        show fbLookup (fbInsert fb k0 o0) k = fbLookup fb k
        rw [fbLookup_fbInsert, if_neg h]

/-- Witness for C1's amended theorem: mb's insert for "b" (offset 9) overrides
fb's entry, "c" is added, and "a" keeps fb's offset. -/
theorem merge_applies_inserts_witness :
    ((Mbtree.mk [("b", 9), ("c", 3)] []).inserts.map Prod.fst).Nodup ∧
    fbLookup (Merge [("a", 1), ("b", 2)] (Mbtree.mk [("b", 9), ("c", 3)] []))
        "b" =
      match fbLookup (Mbtree.mk [("b", 9), ("c", 3)] []).inserts "b" with
      | some o => some o
      | none => fbLookup [("a", 1), ("b", 2)] "b" :=
  ⟨by decide,
    merge_applies_inserts [("a", 1), ("b", 2)]
      (Mbtree.mk [("b", 9), ("c", 3)] []) "b" (by decide)⟩

/-! ### fbtree builder (C5)

The builder itself (`NewFbtreeBuilder` / `Add` / `Finish`) is not among the
sources — only its test is (`fbtree_test.go`, which asserts
`strings.HasPrefix(key, k)` for each iterated key, i.e. only that iterated
keys are PREFIXES of the inserted keys).  Modelled from the spec: the builder
bulk-loads the sorted input into packed leaf nodes; node entries store keys
"truncated to the shortest discriminating prefix" (the shortest prefix
lexicographically above the preceding key), the first entry of each node
storing an empty known prefix; the iterator visits leaf entries in order.
Keys (Go byte strings) are modelled as `List Char`; `m` is the per-node entry
capacity induced by `MaxNodeSize`. -/

/-- The shortest prefix of `key` that discriminates it from the preceding key
`prev`: the first prefix of `key` lexicographically greater than `prev`
(falling back to the whole key). -/
def sdp (prev key : List Char) : List Char :=
  (((List.range (key.length + 1)).map (fun i => key.take i)).find?
    (fun p => decide (prev < p))).getD key

/-- Truncates each entry's key against the preceding key of the same node. -/
def truncFrom (prev : List Char) :
    List (List Char × Nat) → List (List Char × Nat)
  | [] => []
  | (k, o) :: rest => (sdp prev k, o) :: truncFrom k rest

/-- One packed leaf node: the first entry has an empty known prefix, the rest
are prefix-truncated against their predecessor. -/
def leafEntries : List (List Char × Nat) → List (List Char × Nat)
  | [] => []
  | (k, o) :: rest => ([], o) :: truncFrom k rest

/-- Splits the sorted input into leaf nodes of at most `max m 1` entries
(fuel-based recursion; the fuel `l.length` always suffices since every step
consumes at least one element). -/
def chunksOfGo (m : Nat) : Nat → List α → List (List α)
  | _, [] => []
  | 0, _ :: _ => []
  | fuel + 1, x :: xs =>
    (x :: xs.take (m - 1)) :: chunksOfGo m fuel (xs.drop (m - 1))

def chunksOf (m : Nat) (l : List α) : List (List α) := chunksOfGo m l.length l

/-- The leaf level the builder produces for the sorted input. -/
def buildLeaves (m : Nat) (input : List (List Char × Nat)) :
    List (List (List Char × Nat)) :=
  (chunksOf m input).map leafEntries

/-- `Finish` + `fb.Iter()`: the iterator visits the leaf entries in order. -/
def builderIter (m : Nat) (input : List (List Char × Nat)) :
    List (List Char × Nat) :=
  (buildLeaves m input).flatten

theorem chunksOfGo_flatten {α : Type} (m fuel : Nat) (l : List α)
    (h : l.length ≤ fuel) : (chunksOfGo m fuel l).flatten = l := by
  induction fuel generalizing l with
  | zero =>
    cases l with
    | nil => rfl
    | cons x xs => simp at h
  | succ fuel ih =>
    cases l with
    | nil => rfl
    | cons x xs =>
      rw [chunksOfGo, List.flatten_cons, ih (xs.drop (m - 1))
        (by simp at h ⊢; omega)]
      simp [List.take_append_drop]

theorem chunksOf_flatten {α : Type} (m : Nat) (l : List α) :
    (chunksOf m l).flatten = l :=
  chunksOfGo_flatten m l.length l (le_refl _)

theorem sdp_prefix (prev key : List Char) : sdp prev key <+: key := by
  rw [sdp]
  cases hfind : (((List.range (key.length + 1)).map (fun i => key.take i)).find?
      (fun p => decide (prev < p))) with
  | none => exact List.prefix_refl key
  | some p =>
    have hmem := List.mem_of_find?_eq_some hfind
    simp only [List.mem_map, List.mem_range] at hmem
    obtain ⟨i, _, hp⟩ := hmem
    simp only [Option.getD_some]
    exact hp ▸ List.take_prefix i key

theorem truncFrom_forall2 (prev : List Char) (l : List (List Char × Nat)) :
    List.Forall₂ (fun (out inp : List Char × Nat) =>
      out.2 = inp.2 ∧ out.1 <+: inp.1) (truncFrom prev l) l := by
  induction l generalizing prev with
  | nil => exact List.Forall₂.nil
  | cons e rest ih =>
    obtain ⟨k, o⟩ := e
    exact List.Forall₂.cons ⟨rfl, sdp_prefix prev k⟩ (ih k)

theorem leafEntries_forall2 (l : List (List Char × Nat)) :
    List.Forall₂ (fun (out inp : List Char × Nat) =>
      out.2 = inp.2 ∧ out.1 <+: inp.1) (leafEntries l) l := by
  cases l with
  | nil => exact List.Forall₂.nil
  | cons e rest =>
    obtain ⟨k, o⟩ := e
    exact List.Forall₂.cons ⟨rfl, List.nil_prefix⟩ (truncFrom_forall2 k rest)

theorem flatten_leaves_forall2 (chunks : List (List (List Char × Nat))) :
    List.Forall₂ (fun (out inp : List Char × Nat) =>
      out.2 = inp.2 ∧ out.1 <+: inp.1)
      ((chunks.map leafEntries).flatten) chunks.flatten := by
  induction chunks with
  | nil => exact List.Forall₂.nil
  | cons c cs ih =>
    rw [List.map_cons, List.flatten_cons, List.flatten_cons]
    exact List.rel_append (leafEntries_forall2 c) ih

/-- Counterexample to claim C5 as stated: bulk-loading the sorted input
`[("ab", 1), ("cd", 2)]` yields an iterator that returns `[("", 1), ("c", 2)]`
— the offsets in order, but the keys truncated (the first entry of a node has
an empty known prefix; `"c"` is the shortest prefix of `"cd"` above `"ab"`) —
not the same key/offset pairs. -/
theorem builder_truncates_keys :
    builderIter 2 [(['a', 'b'], 1), (['c', 'd'], 2)] =
      [(([] : List Char), 1), (['c'], 2)] ∧
    builderIter 2 [(['a', 'b'], 1), (['c', 'd'], 2)] ≠
      [(['a', 'b'], 1), (['c', 'd'], 2)] := by
  constructor
  · rfl
  · decide

/-- Claim C5 (amended): for every (sorted) input bulk-loaded through the
builder, iterating the resulting fbtree returns the same OFFSETS in the same
order, each paired with a key that is a prefix of the corresponding input key
(truncated to the shortest discriminating prefix, the first entry of each
node keeping an empty known prefix); the full keys themselves are not
reproduced. -/
theorem builder_iter_forall2 (m : Nat) (input : List (List Char × Nat)) :
    List.Forall₂ (fun (out inp : List Char × Nat) =>
      out.2 = inp.2 ∧ out.1 <+: inp.1) (builderIter m input) input := by
  have h := flatten_leaves_forall2 (chunksOf m input)
  rw [chunksOf_flatten] at h
  exact h

end Btree

/-! ## Repair (db19 `Repair` / `prevState` / `checkState`)

The repaired database file is modelled as its byte list (a single chunk — a
state record never straddles chunks, and `Stor.LastOffset`'s chunk-by-chunk
backward scan over one chunk is exactly a backward scan of the flat byte
list).  `checkState` (the full table-index check, whose `dbcheck` machinery is
not among the sources) is an abstract boolean predicate `checkOk` on the
candidate state offset.  The filesystem epilogue — copy the first
`off + stateLen` bytes to a temp file, `WriteAt` the new size into the
header's size-slot at position `len(magic) = 8`, rename the original to
`.bak`, rename the temp file into place — is modelled by returning the new
file's bytes and the `.bak` bytes (the untouched original). -/

namespace RepairScan

open StateRoot

/-- Whether `magic1` occurs at position `i` of the file. -/
def magicMatch (bytes : List Nat) (i : Nat) : Bool :=
  magic1.isPrefixOf (bytes.drop i)

/-- The backward scan of `Stor.LastOffset`: tries positions `n-1, n-2, …, 0`
and returns the first (largest) where the pattern matches, else 0. -/
def lastOffsetGo (bytes : List Nat) : Nat → Nat
  | 0 => 0
  | i + 1 => if magicMatch bytes i then i else lastOffsetGo bytes i

/-- `store.LastOffset(off, magic1)`: the largest `i` with the 8-byte pattern
fully inside `bytes[:off]` (`i + 8 ≤ off`), or 0 when there is none. -/
def lastOffset (bytes : List Nat) (off : Nat) : Nat :=
  lastOffsetGo bytes (off + 1 - magic1.length)

/-- A candidate state at `off` is fully valid when `ReadState` succeeds
(magics and checksum good — `prevState` recovers its panic and skips
otherwise) and every table's index checks out (`checkState` returns nil). -/
def validState (noffs : Nat) (bytes : List Nat) (checkOk : Nat → Bool)
    (i : Nat) : Prop :=
  (readState noffs (bytes.drop i)).isSome ∧ checkOk i = true

instance (noffs : Nat) (bytes : List Nat) (checkOk : Nat → Bool) (i : Nat) :
    Decidable (validState noffs bytes checkOk i) :=
  inferInstanceAs (Decidable (_ ∧ _))

/-- The `Repair` loop: `off, state, t = prevState(store, off)`; error when
`off == 0`; skip when `ReadState` panicked (`state == nil`) or `checkState`
failed; stop at the first fully valid state.  Fuel-based recursion (each
iteration strictly decreases `off`, so `off` itself is enough fuel). -/
def repairGo (noffs : Nat) (bytes : List Nat) (checkOk : Nat → Bool) :
    Nat → Nat → Option Nat
  | 0, _ => none
  | fuel + 1, off =>
    let off2 := lastOffset bytes off
    if off2 = 0 then none
    else
      match readState noffs (bytes.drop off2) with
      | none => repairGo noffs bytes checkOk fuel off2
      | some _ =>
        if checkOk off2 then some off2
        else repairGo noffs bytes checkOk fuel off2

/-- Rewrite the header's size-slot (5 bytes at position `len(magic) = 8`)
with the new file size. -/
def patchSizeSlot (file : List Nat) (newSize : Nat) : List Nat :=
  file.take 8 ++ writeSmallOffset newSize ++ file.drop 13

/-- `Repair(dbfile)`: returns `none` (an error, the file unchanged) when no
valid state exists; otherwise the selected state offset, the repaired file
(the original truncated to `off + stateLen` with the size-slot rewritten), and
the `.bak` file (the original bytes). -/
def repair (noffs : Nat) (bytes : List Nat) (checkOk : Nat → Bool) :
    Option (Nat × List Nat × List Nat) :=
  match repairGo noffs bytes checkOk bytes.length bytes.length with
  | none => none
  | some off =>
    some (off,
      patchSizeSlot (bytes.take (off + stateLen noffs)) (off + stateLen noffs),
      bytes)

theorem lastOffsetGo_spec (bytes : List Nat) (n : Nat) :
    (∀ i, lastOffsetGo bytes n < i → i < n → magicMatch bytes i = false) ∧
    (lastOffsetGo bytes n = 0 ∨
      (magicMatch bytes (lastOffsetGo bytes n) = true ∧
        lastOffsetGo bytes n < n)) := by
  induction n with
  | zero => exact ⟨fun i h1 h2 => absurd h2 (Nat.not_lt_zero _), Or.inl rfl⟩
  | succ n ih =>
    rw [lastOffsetGo]
    by_cases hm : magicMatch bytes n = true
    · rw [if_pos hm]
      refine ⟨fun i h1 h2 => ?_, Or.inr ⟨hm, Nat.lt_succ_self n⟩⟩
      omega
    · rw [if_neg hm]
      refine ⟨fun i h1 h2 => ?_, ?_⟩
      · rcases Nat.lt_succ_iff_lt_or_eq.mp h2 with h | h
        · exact ih.1 i h1 h
        · subst h
          exact Bool.eq_false_iff.mpr hm
      · rcases ih.2 with h | ⟨hm2, hlt2⟩
        · exact Or.inl h
        · exact Or.inr ⟨hm2, by omega⟩

/-- `magic1` cannot overlap itself: its first byte `0x01` occurs nowhere else
in it, so two matches cannot be less than 8 bytes apart. -/
theorem magic1_no_overlap (bytes : List Nat) (i j : Nat) (hij : i < j)
    (hlt : j < i + 8) (hi : magicMatch bytes i = true)
    (hj : magicMatch bytes j = true) : False := by
  rw [magicMatch, List.isPrefixOf_iff_prefix] at hi hj
  obtain ⟨ti, hti⟩ := hi
  set d := j - i with hd
  have hdj : j = d + i := by omega
  have hdrop : bytes.drop j = (magic1 ++ ti).drop d := by
    rw [hti, List.drop_drop]
    congr 1
    omega
  rw [hdrop] at hj
  have hd1 : 1 ≤ d := by omega
  have hd7 : d ≤ 7 := by omega
  interval_cases d <;> simp [magic1] at hj

theorem repairGo_spec (noffs : Nat) (bytes : List Nat) (checkOk : Nat → Bool)
    (fuel : Nat) :
    ∀ off, off ≤ fuel →
    (match repairGo noffs bytes checkOk fuel off with
     | none => ∀ i, 0 < i → i + 8 ≤ off → magicMatch bytes i = true →
         ¬validState noffs bytes checkOk i
     | some r => 0 < r ∧ r + 8 ≤ off ∧ magicMatch bytes r = true ∧
         validState noffs bytes checkOk r ∧
         ∀ i, r < i → i + 8 ≤ off → magicMatch bytes i = true →
           ¬validState noffs bytes checkOk i) := by
  induction fuel with
  | zero =>
    intro off hoff
    have : off = 0 := by omega
    subst this
    intro i h1 h2
    omega
  | succ fuel ih =>
    intro off hoff
    rw [repairGo]
    have hm1len : magic1.length = 8 := rfl
    have hlast := lastOffsetGo_spec bytes (off + 1 - magic1.length)
    rw [hm1len] at hlast
    set off2 := lastOffset bytes off with hoff2def
    have hoff2 : off2 = lastOffsetGo bytes (off + 1 - 8) := by
      rw [hoff2def, lastOffset, hm1len]
    rw [← hoff2] at hlast
    have hbound : ∀ i, off2 < i → i + 8 ≤ off → magicMatch bytes i = false := by
      intro i h1 h2
      exact hlast.1 i h1 (by omega)
    by_cases hz : off2 = 0
    · rw [if_pos hz]
      intro i h1 h2 hmi
      rw [hbound i (by omega) h2] at hmi
      exact absurd hmi (by simp)
    · rw [if_neg hz]
      rcases hlast.2 with h | hgood
      · exact absurd h hz
      have hmatch : magicMatch bytes off2 = true := hgood.1
      have hlt : off2 + 8 ≤ off := by omega
      have hfuel : off2 ≤ fuel := by omega
      have hcover : ∀ i, 0 < i → i + 8 ≤ off → magicMatch bytes i = true →
          i ≠ off2 → i + 8 ≤ off2 ∨ False := by
        intro i h1 h2 hmi hne
        rcases Nat.lt_or_ge i off2 with hilt | hige
        · rcases Nat.lt_or_ge (i + 8) (off2 + 1) with hle | hgt
          · exact Or.inl (by omega)
          · exact Or.inr (magic1_no_overlap bytes i off2 hilt (by omega)
              hmi hmatch)
        · have : off2 < i := by omega
          rw [hbound i this h2] at hmi
          exact Or.inr (by simp at hmi)
      cases hread : readState noffs (bytes.drop off2) with
      | none =>
        have hrec := ih off2 hfuel
        cases hrecv : repairGo noffs bytes checkOk fuel off2 with
        | none =>
          rw [hrecv] at hrec
          intro i h1 h2 hmi
          by_cases hne : i = off2
          · subst hne
            intro hv
            obtain ⟨hva, hvb⟩ := hv
            rw [hread] at hva
            exact absurd hva (by simp)
          · rcases hcover i h1 h2 hmi hne with hle | hfalse
            · exact hrec i h1 hle hmi
            · exact absurd hfalse (by simp)
        | some r =>
          rw [hrecv] at hrec
          refine ⟨hrec.1, by omega, hrec.2.2.1, hrec.2.2.2.1, ?_⟩
          intro i h1 h2 hmi
          by_cases hne : i = off2
          · subst hne
            intro hv
            obtain ⟨hva, hvb⟩ := hv
            rw [hread] at hva
            exact absurd hva (by simp)
          · have h0i : 0 < i := by
              have := hrec.1
              omega
            rcases hcover i h0i h2 hmi hne with hle | hfalse
            · exact hrec.2.2.2.2 i h1 hle hmi
            · exact absurd hfalse (by simp)
      | some st =>
        by_cases hchk : checkOk off2 = true
        · rw [if_pos hchk]
          refine ⟨by omega, hlt, hmatch, ⟨?_, hchk⟩, ?_⟩
          · rw [hread]
            rfl
          intro i h1 h2 hmi
          rw [hbound i h1 h2] at hmi
          exact absurd hmi (by simp)
        · rw [if_neg hchk]
          have hrec := ih off2 hfuel
          cases hrecv : repairGo noffs bytes checkOk fuel off2 with
          | none =>
            rw [hrecv] at hrec
            intro i h1 h2 hmi
            by_cases hne : i = off2
            · subst hne
              intro hv
              exact hchk hv.2
            · rcases hcover i h1 h2 hmi hne with hle | hfalse
              · exact hrec i h1 hle hmi
              · exact absurd hfalse (by simp)
          | some r =>
            rw [hrecv] at hrec
            refine ⟨hrec.1, by omega, hrec.2.2.1, hrec.2.2.2.1, ?_⟩
            intro i h1 h2 hmi
            by_cases hne : i = off2
            · subst hne
              intro hv
              exact hchk hv.2
            · have h0i : 0 < i := by
                have := hrec.1
                omega
              rcases hcover i h0i h2 hmi hne with hle | hfalse
              · exact hrec.2.2.2.2 i h1 hle hmi
              · exact absurd hfalse (by simp)

/-- Claim C6: `Repair` scans backward from the end of the file for `magic1`,
skipping every candidate whose checksum (`ReadState`) or table-index check
(`checkState`) fails, and selects the first — most recent — fully valid state;
the repaired file is the original truncated to `state-offset + state-length`
with the header's size-slot rewritten to that value, and the `.bak` file is
the untouched original; if no valid state exists, `Repair` returns an error
and changes nothing (`none`, no file is produced). -/
theorem repair_spec (noffs : Nat) (bytes : List Nat) (checkOk : Nat → Bool) :
    (∀ off newdb bak,
      repair noffs bytes checkOk = some (off, newdb, bak) →
        0 < off ∧ magicMatch bytes off = true ∧
        validState noffs bytes checkOk off ∧
        (∀ i, off < i → i + 8 ≤ bytes.length → magicMatch bytes i = true →
          ¬validState noffs bytes checkOk i) ∧
        newdb = patchSizeSlot (bytes.take (off + stateLen noffs))
          (off + stateLen noffs) ∧
        bak = bytes) ∧
    (repair noffs bytes checkOk = none →
      ∀ i, 0 < i → i + 8 ≤ bytes.length → magicMatch bytes i = true →
        ¬validState noffs bytes checkOk i) := by
  have h := repairGo_spec noffs bytes checkOk bytes.length bytes.length
    (le_refl _)
  constructor
  · intro off newdb bak hrep
    rw [repair] at hrep
    cases hgo : repairGo noffs bytes checkOk bytes.length bytes.length with
    | none =>
      rw [hgo] at hrep
      exact absurd hrep (by simp)
    | some r =>
      rw [hgo] at hrep h
      simp only [Option.some.injEq, Prod.mk.injEq] at hrep
      obtain ⟨h1, h2, h3⟩ := hrep
      subst h1
      exact ⟨h.1, h.2.2.1, h.2.2.2.1, h.2.2.2.2, h2.symm, h3.symm⟩
  · intro hrep
    rw [repair] at hrep
    cases hgo : repairGo noffs bytes checkOk bytes.length bytes.length with
    | none =>
      rw [hgo] at h
      exact h
    | some r =>
      rw [hgo] at hrep
      exact absurd hrep (by simp)

/-- A concrete database file for the repair witness: a 13-byte header region
followed by one valid state root (no meta offsets, unix time 5). -/
def demoFile : List Nat := List.replicate 13 0 ++ StateRoot.writeState [] 5

/-- Witness for C6 on `demoFile`: repair selects the state at offset 13 and
produces the truncated, size-slot-patched file. -/
theorem repair_spec_witness :
    repair 0 demoFile (fun _ => true) =
      some (13,
        patchSizeSlot (demoFile.take (13 + StateRoot.stateLen 0))
          (13 + StateRoot.stateLen 0),
        demoFile) ∧
    (0 < 13 ∧ magicMatch demoFile 13 = true ∧
      validState 0 demoFile (fun _ => true) 13 ∧
      (∀ i, 13 < i → i + 8 ≤ demoFile.length → magicMatch demoFile i = true →
        ¬validState 0 demoFile (fun _ => true) i) ∧
      patchSizeSlot (demoFile.take (13 + StateRoot.stateLen 0))
          (13 + StateRoot.stateLen 0) =
        patchSizeSlot (demoFile.take (13 + StateRoot.stateLen 0))
          (13 + StateRoot.stateLen 0) ∧
      demoFile = demoFile) :=
  ⟨by decide,
    (repair_spec 0 demoFile (fun _ => true)).1 13
      (patchSizeSlot (demoFile.take (13 + StateRoot.stateLen 0))
        (13 + StateRoot.stateLen 0))
      demoFile (by decide)⟩

end RepairScan

/-! ## Union merge iterator (query `Union.getMerge`)

`Union.getMerge` merges two key-ordered, duplicate-free sources into a
bidirectional iterator.  Rows are modelled by their merge key (the sources are
compared with `u.compare` on `mergeCols`, headed by the key index on which
both sources are ordered, so a row is determined by its key; `JoinRows` with
an empty side does not change the key).  The source queries themselves are
modelled from the spec ("Iterators are bidirectional and rewindable; every
operator tracks a rewound flag to re-seek on a direction change") as the
logical cursor `curGet` over a sorted duplicate-free key list: `Get(Next)`
after a rewind yields the first key, `Get(Prev)` the last, `Get` from a row
yields the adjacent key in that direction, and `Get` past either end yields
nil and stays put until reversed or rewound.  `getMerge`'s own state
(`rewound`, `src1`, `src2`, `row1`, `row2`, `prevDir`) is translated from the
Go field by field. -/

namespace UnionMerge

/-- Iteration direction. -/
inductive Dir where
  | next
  | prev
  deriving Repr, DecidableEq

/-- The position of a bidirectional cursor over a key list. -/
inductive CurPos where
  | rewound
  | onRow (v : Nat)
  | atStart
  | atEnd
  deriving Repr, DecidableEq

/-- The least key of `l` greater than `v` (for sorted `l`). -/
def nextIn (l : List Nat) (v : Nat) : Option Nat :=
  (l.filter (fun x => v < x)).head?

/-- The greatest key of `l` less than `v` (for sorted `l`). -/
def prevIn (l : List Nat) (v : Nat) : Option Nat :=
  (l.filter (fun x => x < v)).getLast?

/-- `nextIn` from an optional frontier (`none` = before the start). -/
def nextInO (l : List Nat) : Option Nat → Option Nat
  | none => l.head?
  | some v => nextIn l v

/-- `prevIn` from an optional frontier (`none` = after the end). -/
def prevInO (l : List Nat) : Option Nat → Option Nat
  | none => l.getLast?
  | some v => prevIn l v

/-- The cursor position after a forward step that produced `o`. -/
def mkPosN : Option Nat → CurPos
  | some e => .onRow e
  | none => .atEnd

/-- The cursor position after a backward step that produced `o`. -/
def mkPosP : Option Nat → CurPos
  | some e => .onRow e
  | none => .atStart

def stepNext (o : Option Nat) : Option Nat × CurPos := (o, mkPosN o)

def stepPrev (o : Option Nat) : Option Nat × CurPos := (o, mkPosP o)

/-- The logical bidirectional cursor over a sorted duplicate-free key list:
the source model, and also the specification the union-merge iterator is
proved to refine (over the merged key list). -/
def curGet (l : List Nat) : Dir → CurPos → Option Nat × CurPos
  | .next, .rewound => stepNext l.head?
  | .next, .atStart => stepNext l.head?
  | .next, .onRow v => stepNext (nextIn l v)
  | .next, .atEnd => (none, .atEnd)
  | .prev, .rewound => stepPrev l.getLast?
  | .prev, .atEnd => stepPrev l.getLast?
  | .prev, .onRow v => stepPrev (prevIn l v)
  | .prev, .atStart => (none, .atStart)

/-- The duplicate-free ordered union of two sorted duplicate-free key lists
(a key present in both appears once). -/
def mergeU : List Nat → List Nat → List Nat
  | [], ys => ys
  | x :: xs, [] => x :: xs
  | x :: xs, y :: ys =>
    if x < y then x :: mergeU xs (y :: ys)
    else if y < x then y :: mergeU (x :: xs) ys
    else x :: mergeU xs ys
  termination_by xs ys => xs.length + ys.length

/-- Option-min: `none` is +∞. -/
def omin : Option Nat → Option Nat → Option Nat
  | none, o => o
  | some a, none => some a
  | some a, some b => some (min a b)

/-- Option-max: `none` is −∞. -/
def omax : Option Nat → Option Nat → Option Nat
  | none, o => o
  | some a, none => some a
  | some a, some b => some (max a b)

theorem mergeU_nil_right (xs : List Nat) : mergeU xs [] = xs := by
  cases xs <;> rw [mergeU]

theorem mergeU_nil_left (ys : List Nat) : mergeU [] ys = ys := by
  rw [mergeU]

theorem head?_mergeU (xs ys : List Nat) :
    (mergeU xs ys).head? = omin xs.head? ys.head? := by
  cases xs with
  | nil => rw [mergeU_nil_left]; rfl
  | cons x xs =>
    cases ys with
    | nil => rw [mergeU_nil_right]; rfl
    | cons y ys =>
      rw [mergeU]
      by_cases h1 : x < y
      · rw [if_pos h1]
        simp [omin]
        omega
      · rw [if_neg h1]
        by_cases h2 : y < x
        · rw [if_pos h2]
          simp [omin]
          omega
        · rw [if_neg h2]
          simp [omin]
          omega

theorem sorted_head_le (y : Nat) (ys : List Nat)
    (h : List.Chain' (· < ·) (y :: ys)) (b : Nat) (hb : b ∈ y :: ys) :
    y ≤ b := by
  have hp : List.Pairwise (· < ·) (y :: ys) :=
    (List.chain'_iff_pairwise).mp h
  rcases List.mem_cons.mp hb with h1 | h1
  · omega
  · have := (List.pairwise_cons.mp hp).1 b h1
    omega

theorem sorted_last_ge (l : List Nat) (h : List.Chain' (· < ·) l) (e : Nat)
    (he : l.getLast? = some e) (b : Nat) (hb : b ∈ l) : b ≤ e := by
  induction l with
  | nil => cases hb
  | cons x xs ih =>
    cases xs with
    | nil =>
      simp at he hb
      omega
    | cons x2 xs2 =>
      rw [List.getLast?_cons_cons] at he
      have hemem : e ∈ x2 :: xs2 :=
        List.mem_of_mem_getLast? (by rw [Option.mem_def, he])
      rcases List.mem_cons.mp hb with h1 | h1
      · have hp : List.Pairwise (· < ·) (x :: x2 :: xs2) :=
          (List.chain'_iff_pairwise).mp h
        have := (List.pairwise_cons.mp hp).1 e hemem
        omega
      · exact ih h.tail he h1

theorem mergeU_cons_lt (x : Nat) (A B : List Nat) (h : ∀ b ∈ B, x < b) :
    mergeU (x :: A) B = x :: mergeU A B := by
  cases B with
  | nil => rw [mergeU_nil_right, mergeU_nil_right]
  | cons b B2 =>
    rw [mergeU, if_pos (h b (by simp))]

theorem mergeU_cons_gt (y : Nat) (A B : List Nat) (h : ∀ a ∈ A, y < a) :
    mergeU A (y :: B) = y :: mergeU A B := by
  cases A with
  | nil => rw [mergeU_nil_left, mergeU_nil_left]
  | cons a A2 =>
    have hya : y < a := h a (by simp)
    rw [mergeU, if_neg (by omega), if_pos hya]

theorem filter_mergeU (p : Nat → Bool) (xs ys : List Nat)
    (hx : List.Chain' (· < ·) xs) (hy : List.Chain' (· < ·) ys) :
    (mergeU xs ys).filter p = mergeU (xs.filter p) (ys.filter p) := by
  induction xs, ys using mergeU.induct with
  | case1 ys => simp [mergeU_nil_left]
  | case2 x xs => simp [mergeU_nil_right]
  | case3 x xs y ys hlt ih =>
    rw [mergeU, if_pos hlt, List.filter_cons, List.filter_cons,
      ih hx.tail hy]
    have hall : ∀ b ∈ (y :: ys).filter p, x < b := by
      intro b hb
      have hmem := List.mem_of_mem_filter hb
      have := sorted_head_le y ys hy b hmem
      omega
    by_cases hpx : p x = true
    · rw [if_pos hpx, if_pos hpx, mergeU_cons_lt x _ _ hall]
    · rw [if_neg hpx, if_neg hpx]
  | case4 x xs y ys hnlt hlt ih =>
    rw [mergeU, if_neg hnlt, if_pos hlt, List.filter_cons, ih hx hy.tail]
    have hall : ∀ a ∈ (x :: xs).filter p, y < a := by
      intro a ha
      have hmem := List.mem_of_mem_filter ha
      have := sorted_head_le x xs hx a hmem
      omega
    have hexp : List.filter p (y :: ys) =
        if p y = true then y :: List.filter p ys else List.filter p ys :=
      List.filter_cons
    rw [hexp]
    by_cases hpy : p y = true
    · rw [if_pos hpy, if_pos hpy, mergeU_cons_gt y _ _ hall]
    · rw [if_neg hpy, if_neg hpy]
  | case5 x xs y ys hnlt hngt ih =>
    have hxy : x = y := by omega
    subst hxy
    rw [mergeU, if_neg hnlt, if_neg hngt, List.filter_cons, List.filter_cons,
      List.filter_cons, ih hx.tail hy.tail]
    by_cases hpx : p x = true
    · rw [if_pos hpx, if_pos hpx, if_pos hpx, mergeU]
      rw [if_neg hnlt, if_neg hngt]
    · rw [if_neg hpx, if_neg hpx, if_neg hpx]

theorem omin_none_right (o : Option Nat) : omin o none = o := by
  cases o <;> rfl

theorem omax_none_right (o : Option Nat) : omax o none = o := by
  cases o <;> rfl

theorem mergeU_eq_nil (xs ys : List Nat) (h : mergeU xs ys = []) :
    xs = [] ∧ ys = [] := by
  induction xs, ys using mergeU.induct with
  | case1 ys => rw [mergeU_nil_left] at h; exact ⟨rfl, h⟩
  | case2 x xs => rw [mergeU_nil_right] at h; exact ⟨h, rfl⟩
  | case3 x xs y ys hlt ih => rw [mergeU, if_pos hlt] at h; cases h
  | case4 x xs y ys hnlt hlt ih =>
    rw [mergeU, if_neg hnlt, if_pos hlt] at h; cases h
  | case5 x xs y ys hnlt hngt ih =>
    rw [mergeU, if_neg hnlt, if_neg hngt] at h; cases h

theorem getLast?_cons_ne (x : Nat) (l : List Nat) (h : l ≠ []) :
    (x :: l).getLast? = l.getLast? := by
  cases l with
  | nil => exact absurd rfl h
  | cons a as => exact List.getLast?_cons_cons

theorem getLast?_mergeU (xs ys : List Nat)
    (hx : List.Chain' (· < ·) xs) (hy : List.Chain' (· < ·) ys) :
    (mergeU xs ys).getLast? = omax xs.getLast? ys.getLast? := by
  induction xs, ys using mergeU.induct with
  | case1 ys => rw [mergeU_nil_left]; rfl
  | case2 x xs =>
    rw [mergeU_nil_right, show ([] : List Nat).getLast? = none from rfl,
      omax_none_right]
  | case3 x xs y ys hlt ih =>
    rw [mergeU, if_pos hlt]
    have hne : mergeU xs (y :: ys) ≠ [] := by
      intro hnil
      cases (mergeU_eq_nil _ _ hnil).2
    rw [getLast?_cons_ne x _ hne, ih hx.tail hy]
    cases xs with
    | nil =>
      rw [show ([] : List Nat).getLast? = none from rfl]
      cases hg : (y :: ys).getLast? with
      | none => simp at hg
      | some b =>
        have hb : b ∈ y :: ys :=
          List.mem_of_mem_getLast? (by rw [Option.mem_def, hg])
        have hyb : y ≤ b := sorted_head_le y ys hy b hb
        show some b = omax ([x].getLast?) (some b)
        rw [show ([x] : List Nat).getLast? = some x from rfl]
        show some b = some (max x b)
        have hmax : max x b = b := by omega
        rw [hmax]
    | cons x2 xs2 =>
      rw [List.getLast?_cons_cons]
  | case4 x xs y ys hnlt hlt ih =>
    rw [mergeU, if_neg hnlt, if_pos hlt]
    have hne : mergeU (x :: xs) ys ≠ [] := by
      intro hnil
      cases (mergeU_eq_nil _ _ hnil).1
    rw [getLast?_cons_ne y _ hne, ih hx hy.tail]
    cases ys with
    | nil =>
      rw [show ([] : List Nat).getLast? = none from rfl, omax_none_right]
      cases ha : (x :: xs).getLast? with
      | none => simp at ha
      | some a =>
        have hamem : a ∈ x :: xs :=
          List.mem_of_mem_getLast? (by rw [Option.mem_def, ha])
        have hxa : x ≤ a := sorted_head_le x xs hx a hamem
        rw [show ([y] : List Nat).getLast? = some y from rfl]
        show some a = some (max a y)
        have hmax : max a y = a := by omega
        rw [hmax]
    | cons y2 ys2 =>
      rw [List.getLast?_cons_cons]
  | case5 x xs y ys hnlt hngt ih =>
    have hxy : x = y := by omega
    subst hxy
    rw [mergeU, if_neg hnlt, if_neg hngt]
    by_cases hnil : mergeU xs ys = []
    · obtain ⟨hx0, hy0⟩ := mergeU_eq_nil _ _ hnil
      subst hx0
      subst hy0
      rw [mergeU_nil_left]
      show some x = some (max x x)
      rw [Nat.max_self]
    · rw [getLast?_cons_ne x _ hnil, ih hx.tail hy.tail]
      cases xs with
      | nil =>
        cases ys with
        | nil => exact absurd (mergeU_nil_left []) hnil
        | cons y2 ys2 =>
          rw [show ([] : List Nat).getLast? = none from rfl,
            List.getLast?_cons_cons]
          cases hg : (y2 :: ys2).getLast? with
          | none => simp at hg
          | some b =>
            have hb : b ∈ y2 :: ys2 :=
              List.mem_of_mem_getLast? (by rw [Option.mem_def, hg])
            have hxb : x ≤ b :=
              sorted_head_le x (y2 :: ys2) hy b (List.mem_cons_of_mem _ hb)
            show some b = some (max x b)
            have hmax : max x b = b := by omega
            rw [hmax]
      | cons x2 xs2 =>
        cases ys with
        | nil =>
          rw [show ([] : List Nat).getLast? = none from rfl,
            List.getLast?_cons_cons, omax_none_right]
          cases ha : (x2 :: xs2).getLast? with
          | none => simp at ha
          | some a =>
            have hamem : a ∈ x2 :: xs2 :=
              List.mem_of_mem_getLast? (by rw [Option.mem_def, ha])
            have hxa : x ≤ a :=
              sorted_head_le x (x2 :: xs2) hx a (List.mem_cons_of_mem _ hamem)
            rw [show ([x] : List Nat).getLast? = some x from rfl]
            show some a = some (max a x)
            have hmax : max a x = a := by omega
            rw [hmax]
        | cons y2 ys2 =>
          rw [List.getLast?_cons_cons, List.getLast?_cons_cons]

theorem nextIn_mergeU (xs ys : List Nat) (hx : List.Chain' (· < ·) xs)
    (hy : List.Chain' (· < ·) ys) (v : Nat) :
    nextIn (mergeU xs ys) v = omin (nextIn xs v) (nextIn ys v) := by
  rw [nextIn, nextIn, nextIn, filter_mergeU _ _ _ hx hy, head?_mergeU]

theorem chain'_filter (p : Nat → Bool) (l : List Nat)
    (h : List.Chain' (· < ·) l) : List.Chain' (· < ·) (l.filter p) :=
  List.Chain'.sublist h (List.filter_sublist l)

theorem prevIn_mergeU (xs ys : List Nat) (hx : List.Chain' (· < ·) xs)
    (hy : List.Chain' (· < ·) ys) (v : Nat) :
    prevIn (mergeU xs ys) v = omax (prevIn xs v) (prevIn ys v) := by
  rw [prevIn, prevIn, prevIn, filter_mergeU _ _ _ hx hy,
    getLast?_mergeU _ _ (chain'_filter _ _ hx) (chain'_filter _ _ hy)]

theorem nextInO_mergeU (xs ys : List Nat) (hx : List.Chain' (· < ·) xs)
    (hy : List.Chain' (· < ·) ys) (f : Option Nat) :
    nextInO (mergeU xs ys) f = omin (nextInO xs f) (nextInO ys f) := by
  cases f with
  | none => exact head?_mergeU xs ys
  | some v => exact nextIn_mergeU xs ys hx hy v

theorem prevInO_mergeU (xs ys : List Nat) (hx : List.Chain' (· < ·) xs)
    (hy : List.Chain' (· < ·) ys) (f : Option Nat) :
    prevInO (mergeU xs ys) f = omax (prevInO xs f) (prevInO ys f) := by
  cases f with
  | none => exact getLast?_mergeU xs ys hx hy
  | some v => exact prevIn_mergeU xs ys hx hy v

theorem nextIn_mem (l : List Nat) (v e : Nat) (h : nextIn l v = some e) :
    e ∈ l ∧ v < e := by
  rw [nextIn] at h
  have hmem : e ∈ l.filter (fun x => v < x) :=
    List.mem_of_mem_head? (by rw [Option.mem_def]; exact h)
  have := List.mem_filter.mp hmem
  exact ⟨this.1, by simpa using this.2⟩

theorem prevIn_mem (l : List Nat) (v e : Nat) (h : prevIn l v = some e) :
    e ∈ l ∧ e < v := by
  rw [prevIn] at h
  have hmem : e ∈ l.filter (fun x => x < v) :=
    List.mem_of_mem_getLast? (by rw [Option.mem_def]; exact h)
  have := List.mem_filter.mp hmem
  exact ⟨this.1, by simpa using this.2⟩

theorem nextIn_min (l : List Nat) (hl : List.Chain' (· < ·) l) (v e : Nat)
    (h : nextIn l v = some e) : ∀ w ∈ l, v < w → e ≤ w := by
  intro w hw hvw
  rw [nextIn] at h
  cases hf : l.filter (fun x => v < x) with
  | nil => rw [hf] at h; cases h
  | cons a t =>
    rw [hf] at h
    have hae : a = e := by
      simp at h
      exact h
    subst hae
    have hw2 : w ∈ a :: t := by
      rw [← hf]
      exact List.mem_filter.mpr ⟨hw, by simpa using hvw⟩
    have hsorted : List.Chain' (· < ·) (a :: t) := by
      rw [← hf]
      exact chain'_filter _ _ hl
    exact sorted_head_le a t hsorted w hw2

theorem prevIn_max (l : List Nat) (hl : List.Chain' (· < ·) l) (v e : Nat)
    (h : prevIn l v = some e) : ∀ w ∈ l, w < v → w ≤ e := by
  intro w hw hwv
  rw [prevIn] at h
  have hw2 : w ∈ l.filter (fun x => x < v) :=
    List.mem_filter.mpr ⟨hw, by simpa using hwv⟩
  exact sorted_last_ge _ (chain'_filter _ _ hl) e h w hw2

theorem nextIn_none (l : List Nat) (v : Nat) (h : nextIn l v = none) :
    ∀ w ∈ l, ¬v < w := by
  intro w hw
  rw [nextIn, List.head?_eq_none_iff, List.filter_eq_nil_iff] at h
  have := h w hw
  simpa using this

theorem prevIn_none (l : List Nat) (v : Nat) (h : prevIn l v = none) :
    ∀ w ∈ l, ¬w < v := by
  intro w hw
  rw [prevIn, List.getLast?_eq_none_iff, List.filter_eq_nil_iff] at h
  have := h w hw
  simpa using this

theorem head?_of_min (l : List Nat) (hl : List.Chain' (· < ·) l) (e : Nat)
    (hmem : e ∈ l) (hmin : ∀ w ∈ l, e ≤ w) : l.head? = some e := by
  cases l with
  | nil => cases hmem
  | cons a t =>
    have hea : e ≤ a := hmin a (by simp)
    rcases List.mem_cons.mp hmem with h1 | h1
    · rw [h1]
      rfl
    · have hp : List.Pairwise (· < ·) (a :: t) :=
        (List.chain'_iff_pairwise).mp hl
      have := (List.pairwise_cons.mp hp).1 e h1
      omega

theorem getLast?_of_max (l : List Nat) (hl : List.Chain' (· < ·) l) (e : Nat)
    (hmem : e ∈ l) (hmax : ∀ w ∈ l, w ≤ e) : l.getLast? = some e := by
  induction l with
  | nil => cases hmem
  | cons a t ih =>
    cases t with
    | nil =>
      simp at hmem
      rw [hmem]
      rfl
    | cons b t2 =>
      rw [List.getLast?_cons_cons]
      have het : e ∈ b :: t2 := by
        rcases List.mem_cons.mp hmem with h1 | h1
        · exfalso
          have hp : List.Pairwise (· < ·) (a :: b :: t2) :=
            (List.chain'_iff_pairwise).mp hl
          have hab := (List.pairwise_cons.mp hp).1 b (by simp)
          have hbe : b ≤ e := hmax b (by simp)
          omega
        · exact h1
      exact ih hl.tail het (fun w hw => hmax w (List.mem_cons_of_mem _ hw))

theorem nextIn_eq_some (l : List Nat) (hl : List.Chain' (· < ·) l) (v e : Nat)
    (hmem : e ∈ l) (hlt : v < e) (hmin : ∀ w ∈ l, v < w → e ≤ w) :
    nextIn l v = some e := by
  rw [nextIn]
  apply head?_of_min _ (chain'_filter _ _ hl)
  · exact List.mem_filter.mpr ⟨hmem, by simpa using hlt⟩
  · intro w hw
    have := List.mem_filter.mp hw
    exact hmin w this.1 (by simpa using this.2)

theorem prevIn_eq_some (l : List Nat) (hl : List.Chain' (· < ·) l) (v e : Nat)
    (hmem : e ∈ l) (hlt : e < v) (hmax : ∀ w ∈ l, w < v → w ≤ e) :
    prevIn l v = some e := by
  rw [prevIn]
  apply getLast?_of_max _ (chain'_filter _ _ hl)
  · exact List.mem_filter.mpr ⟨hmem, by simpa using hlt⟩
  · intro w hw
    have := List.mem_filter.mp hw
    exact hmax w this.1 (by simpa using this.2)

theorem nextIn_none_mono (l : List Nat) (r a : Nat) (h : nextIn l r = none)
    (hra : r ≤ a) : nextIn l a = none := by
  rw [nextIn, List.head?_eq_none_iff, List.filter_eq_nil_iff]
  intro w hw
  have := nextIn_none l r h w hw
  simp
  omega

theorem prevIn_none_mono (l : List Nat) (r a : Nat) (h : prevIn l r = none)
    (har : a ≤ r) : prevIn l a = none := by
  rw [prevIn, List.getLast?_eq_none_iff, List.filter_eq_nil_iff]
  intro w hw
  have := prevIn_none l r h w hw
  simp
  omega

theorem prevIn_of_nextIn (l : List Nat) (hl : List.Chain' (· < ·) l)
    (r e : Nat) (hnr : r ∉ l) (h : nextIn l r = some e) :
    prevIn l e = prevIn l r := by
  rw [prevIn, prevIn]
  have hcong : ∀ w ∈ l, (decide (w < e)) = (decide (w < r)) := by
    intro w hw
    have hre := (nextIn_mem l r e h).2
    by_cases hwr : w < r
    · simp [hwr]
      omega
    · have hwne : w ≠ r := fun hc => hnr (hc ▸ hw)
      have hrw : r < w := by omega
      have := nextIn_min l hl r e h w hw hrw
      simp [hwr]
      omega
  rw [List.filter_congr hcong]

theorem nextIn_of_prevIn (l : List Nat) (hl : List.Chain' (· < ·) l)
    (r e : Nat) (hnr : r ∉ l) (h : prevIn l r = some e) :
    nextIn l e = nextIn l r := by
  rw [nextIn, nextIn]
  have hcong : ∀ w ∈ l, (decide (e < w)) = (decide (r < w)) := by
    intro w hw
    have her := (prevIn_mem l r e h).2
    by_cases hwr : r < w
    · simp [hwr]
      omega
    · have hwne : w ≠ r := fun hc => hnr (hc ▸ hw)
      have hrw : w < r := by omega
      have := prevIn_max l hl r e h w hw hrw
      simp [hwr]
      omega
  rw [List.filter_congr hcong]

theorem prevIn_of_nextIn_none (l : List Nat) (r : Nat)
    (h : nextIn l r = none) (hnr : r ∉ l) : prevIn l r = l.getLast? := by
  rw [prevIn]
  rw [List.filter_eq_self.mpr]
  intro w hw
  have h1 := nextIn_none l r h w hw
  have hwne : w ≠ r := fun hc => hnr (hc ▸ hw)
  simp
  omega

theorem nextIn_of_prevIn_none (l : List Nat) (r : Nat)
    (h : prevIn l r = none) (hnr : r ∉ l) : nextIn l r = l.head? := by
  rw [nextIn]
  rw [List.filter_eq_self.mpr]
  intro w hw
  have h1 := prevIn_none l r h w hw
  have hwne : w ≠ r := fun hc => hnr (hc ▸ hw)
  simp
  omega

/-! ### Frontier-level facts (`nextInO` / `prevInO`) -/

/-- `w` lies strictly beyond the forward frontier `f`. -/
def fgt : Option Nat → Nat → Prop
  | none, _ => True
  | some v, w => v < w

/-- `w` lies strictly before the backward frontier `f`. -/
def flt : Option Nat → Nat → Prop
  | none, _ => True
  | some v, w => w < v

theorem nextInO_mem (l : List Nat) (f : Option Nat) (e : Nat)
    (h : nextInO l f = some e) : e ∈ l ∧ fgt f e := by
  cases f with
  | none =>
    exact ⟨List.mem_of_mem_head? (by rw [Option.mem_def]; exact h), trivial⟩
  | some v => exact nextIn_mem l v e h

theorem prevInO_mem (l : List Nat) (f : Option Nat) (e : Nat)
    (h : prevInO l f = some e) : e ∈ l ∧ flt f e := by
  cases f with
  | none =>
    exact ⟨List.mem_of_mem_getLast? (by rw [Option.mem_def]; exact h), trivial⟩
  | some v => exact prevIn_mem l v e h

theorem nextInO_min (l : List Nat) (hl : List.Chain' (· < ·) l)
    (f : Option Nat) (e : Nat) (h : nextInO l f = some e) :
    ∀ w ∈ l, fgt f w → e ≤ w := by
  cases f with
  | none =>
    intro w hw _
    cases l with
    | nil => cases hw
    | cons a t =>
      have hae : a = e := by
        simp [nextInO] at h
        exact h
      subst hae
      exact sorted_head_le a t hl w hw
  | some v => exact nextIn_min l hl v e h

theorem prevInO_max (l : List Nat) (hl : List.Chain' (· < ·) l)
    (f : Option Nat) (e : Nat) (h : prevInO l f = some e) :
    ∀ w ∈ l, flt f w → w ≤ e := by
  cases f with
  | none =>
    intro w hw _
    exact sorted_last_ge l hl e h w hw
  | some v => exact prevIn_max l hl v e h

theorem nextInO_none_above (l : List Nat) (f : Option Nat) (a : Nat)
    (hb : nextInO l f = none) (hfa : fgt f a) :
    nextIn l a = none ∧ a ∉ l := by
  cases f with
  | none =>
    rw [nextInO, List.head?_eq_none_iff] at hb
    subst hb
    exact ⟨rfl, by simp⟩
  | some r =>
    have hra : r < a := hfa
    constructor
    · exact nextIn_none_mono l r a hb (by omega)
    · intro hmem
      exact nextIn_none l r hb a hmem hra

theorem prevInO_none_below (l : List Nat) (f : Option Nat) (a : Nat)
    (hb : prevInO l f = none) (hfa : flt f a) :
    prevIn l a = none ∧ a ∉ l := by
  cases f with
  | none =>
    rw [prevInO, List.getLast?_eq_none_iff] at hb
    subst hb
    exact ⟨rfl, by simp⟩
  | some r =>
    have hra : a < r := hfa
    constructor
    · exact prevIn_none_mono l r a hb (by omega)
    · intro hmem
      exact prevIn_none l r hb a hmem hra

theorem nextInO_step (l : List Nat) (hl : List.Chain' (· < ·) l)
    (f : Option Nat) (a b : Nat) (hb : nextInO l f = some b) (hab : a < b)
    (hfa : fgt f a) : nextIn l a = some b ∧ a ∉ l := by
  obtain ⟨hbmem, hfb⟩ := nextInO_mem l f b hb
  have hmin := nextInO_min l hl f b hb
  constructor
  · apply nextIn_eq_some l hl a b hbmem hab
    intro w hw haw
    apply hmin w hw
    cases f with
    | none => trivial
    | some r =>
      have : r < a := hfa
      show r < w
      omega
  · intro hmem
    have := hmin a hmem hfa
    omega

theorem prevInO_step (l : List Nat) (hl : List.Chain' (· < ·) l)
    (f : Option Nat) (a b : Nat) (hb : prevInO l f = some b) (hab : b < a)
    (hfa : flt f a) : prevIn l a = some b ∧ a ∉ l := by
  obtain ⟨hbmem, hfb⟩ := prevInO_mem l f b hb
  have hmax := prevInO_max l hl f b hb
  constructor
  · apply prevIn_eq_some l hl a b hbmem hab
    intro w hw haw
    apply hmax w hw
    cases f with
    | none => trivial
    | some r =>
      have : a < r := hfa
      show w < r
      omega
  · intro hmem
    have := hmax a hmem hfa
    omega

/-! ### The `Union.getMerge` state machine -/

/-- The fields of `Union` that `getMerge` reads and writes, translated from
the Go struct: `rewound`, `src1`, `src2`, `row1`, `row2`, `prevDir`, plus the
positions of the two source cursors. -/
structure UState where
  rewound : Bool
  src1 : Bool
  src2 : Bool
  row1 : Option Nat
  row2 : Option Nat
  prevDir : Dir
  p1 : CurPos
  p2 : CurPos
  deriving Repr, DecidableEq

/-- The Go `get1` closure: `if dir != u.prevDir && u.row1 == nil {
u.source1.Rewind() }; u.row1 = u.source1.Get(th, dir)`. -/
def get1 (xs : List Nat) (d : Dir) (u : UState) : UState :=
  let p := if d ≠ u.prevDir ∧ u.row1 = none then CurPos.rewound else u.p1
  let r := curGet xs d p
  { u with row1 := r.1, p1 := r.2 }

/-- The Go `get2` closure. -/
def get2 (ys : List Nat) (d : Dir) (u : UState) : UState :=
  let p := if d ≠ u.prevDir ∧ u.row2 = none then CurPos.rewound else u.p2
  let r := curGet ys d p
  { u with row2 := r.1, p2 := r.2 }

/-- The refill section of `getMerge`: `if u.rewound || (u.src1 && u.src2) {
get1(); get2() } else if u.src1 { get1(); if dir != u.prevDir { get2() } }
else if u.src2 { get2(); if dir != u.prevDir { get1() } }`. -/
def refill (xs ys : List Nat) (d : Dir) (u : UState) : UState :=
  if u.rewound ∨ (u.src1 ∧ u.src2) then get2 ys d (get1 xs d u)
  else if u.src1 then
    if d ≠ u.prevDir then get2 ys d (get1 xs d u) else get1 xs d u
  else if u.src2 then
    if d ≠ u.prevDir then get1 xs d (get2 ys d u) else get2 ys d u
  else u

/-- The tail of `getMerge`: `u.prevDir = dir; u.src1, u.src2 = false, false`
(and the deferred `u.rewound = false`), then the nil/compare dispatch:
identical rows are returned once with both flags set; otherwise `cmp`
(negated for Prev) picks the smaller (Next) or larger (Prev) row. -/
def finish (d : Dir) (u0 : UState) : Option Nat × UState :=
  let u := { u0 with prevDir := d, src1 := false, src2 := false,
                     rewound := false }
  match u.row1, u.row2 with
  | none, none => (none, { u with src1 := true, src2 := true })
  | some r1, none => (some r1, { u with src1 := true })
  | none, some r2 => (some r2, { u with src2 := true })
  | some r1, some r2 =>
    if r1 = r2 then (some r1, { u with src1 := true, src2 := true })
    else if (match d with
             | .next => decide (r1 < r2)
             | .prev => decide (r2 < r1)) then
      (some r1, { u with src1 := true })
    else (some r2, { u with src2 := true })

/-- `Union.getMerge(th, dir)`. -/
def getMerge (xs ys : List Nat) (d : Dir) (u : UState) :
    Option Nat × UState :=
  finish d (refill xs ys d u)

/-- The state as set up by `setApproach` (`u.rewound = true`, fresh sources). -/
def initU : UState :=
  ⟨true, false, false, none, none, .next, .rewound, .rewound⟩

/-- The outputs of a sequence of `Get` calls on the union-merge iterator. -/
def runImpl (xs ys : List Nat) : List Dir → UState → List (Option Nat)
  | [], _ => []
  | d :: ds, u =>
    (getMerge xs ys d u).1 :: runImpl xs ys ds (getMerge xs ys d u).2

/-- The outputs of the same calls on the logical cursor over a key list. -/
def runSpec (zs : List Nat) : List Dir → CurPos → List (Option Nat)
  | [], _ => []
  | d :: ds, c =>
    (curGet zs d c).1 :: runSpec zs ds (curGet zs d c).2

/-! ### The refinement invariant -/

/-- The state of one side of the merge while iterating forward at current row
`r`: either this side's row was just consumed (its cursor sits on `r`), or it
holds the lookahead — the least key of this source above `r` (and `r` is not
in this source). -/
def SideN (l : List Nat) (src : Bool) (row : Option Nat) (p : CurPos)
    (r : Nat) : Prop :=
  match src with
  | true => row = some r ∧ p = CurPos.onRow r
  | false => r ∉ l ∧ row = nextIn l r ∧ p = mkPosN (nextIn l r)

/-- The mirror-image side state while iterating backward. -/
def SideP (l : List Nat) (src : Bool) (row : Option Nat) (p : CurPos)
    (r : Nat) : Prop :=
  match src with
  | true => row = some r ∧ p = CurPos.onRow r
  | false => r ∉ l ∧ row = prevIn l r ∧ p = mkPosP (prevIn l r)

/-- The simulation invariant tying a `getMerge` state to the position of the
logical cursor over the merged key list. -/
inductive Inv (xs ys : List Nat) : UState → CurPos → Prop where
  | rewound (u : UState) (hrw : u.rewound = true) (hp1 : u.p1 = .rewound)
      (hp2 : u.p2 = .rewound) : Inv xs ys u .rewound
  | onNext (u : UState) (r : Nat) (hrw : u.rewound = false)
      (hd : u.prevDir = .next) (hsrc : u.src1 = true ∨ u.src2 = true)
      (h1 : SideN xs u.src1 u.row1 u.p1 r)
      (h2 : SideN ys u.src2 u.row2 u.p2 r) : Inv xs ys u (.onRow r)
  | onPrev (u : UState) (r : Nat) (hrw : u.rewound = false)
      (hd : u.prevDir = .prev) (hsrc : u.src1 = true ∨ u.src2 = true)
      (h1 : SideP xs u.src1 u.row1 u.p1 r)
      (h2 : SideP ys u.src2 u.row2 u.p2 r) : Inv xs ys u (.onRow r)
  | endNext (u : UState) (hrw : u.rewound = false) (hd : u.prevDir = .next)
      (hs1 : u.src1 = true) (hs2 : u.src2 = true) (hr1 : u.row1 = none)
      (hr2 : u.row2 = none) (hp1 : u.p1 = .atEnd) (hp2 : u.p2 = .atEnd) :
      Inv xs ys u .atEnd
  | startPrev (u : UState) (hrw : u.rewound = false) (hd : u.prevDir = .prev)
      (hs1 : u.src1 = true) (hs2 : u.src2 = true) (hr1 : u.row1 = none)
      (hr2 : u.row2 = none) (hp1 : u.p1 = .atStart) (hp2 : u.p2 = .atStart) :
      Inv xs ys u .atStart

/-- Combine step, forward: if after the refill both rows hold the first key of
their source beyond the frontier `f`, then `finish .next` emits the first key
of the merged list beyond `f` and re-establishes the invariant. -/
theorem finishNext (xs ys : List Nat) (hx : List.Chain' (· < ·) xs)
    (hy : List.Chain' (· < ·) ys) (f : Option Nat) (u : UState)
    (h1 : u.row1 = nextInO xs f) (h2 : u.row2 = nextInO ys f)
    (hp1 : u.p1 = mkPosN u.row1) (hp2 : u.p2 = mkPosN u.row2) :
    (finish .next u).1 = nextInO (mergeU xs ys) f ∧
    Inv xs ys (finish .next u).2 (mkPosN (nextInO (mergeU xs ys) f)) := by
  obtain ⟨urw, us1, us2, ur1, ur2, upd, up1, up2⟩ := u
  simp only at h1 h2 hp1 hp2
  subst h1 h2 hp1 hp2
  rw [nextInO_mergeU xs ys hx hy f]
  cases ha : nextInO xs f with
  | none =>
    cases hb : nextInO ys f with
    | none =>
      refine ⟨rfl, ?_⟩
      exact Inv.endNext _ rfl rfl rfl rfl rfl rfl rfl rfl
    | some b =>
      refine ⟨rfl, ?_⟩
      show Inv xs ys _ (CurPos.onRow b)
      apply Inv.onNext _ b rfl rfl (Or.inr rfl)
      · show SideN xs false none (mkPosN none) b
        obtain ⟨hnone, hnmem⟩ := nextInO_none_above xs f b ha
          (nextInO_mem ys f b hb).2
        exact ⟨hnmem, hnone.symm, by rw [hnone]⟩
      · exact ⟨rfl, rfl⟩
  | some a =>
    cases hb : nextInO ys f with
    | none =>
      refine ⟨rfl, ?_⟩
      show Inv xs ys _ (CurPos.onRow a)
      apply Inv.onNext _ a rfl rfl (Or.inl rfl)
      · exact ⟨rfl, rfl⟩
      · show SideN ys false none (mkPosN none) a
        obtain ⟨hnone, hnmem⟩ := nextInO_none_above ys f a hb
          (nextInO_mem xs f a ha).2
        exact ⟨hnmem, hnone.symm, by rw [hnone]⟩
    | some b =>
      by_cases hab : a = b
      · subst hab
        have hfin : finish .next
            ⟨urw, us1, us2, some a, some a, upd, mkPosN (some a),
             mkPosN (some a)⟩ =
            (some a, ⟨false, true, true, some a, some a, .next,
                      mkPosN (some a), mkPosN (some a)⟩) := by
          simp [finish]
        have hmm : omin (some a) (some a) = some a := by
          simp [omin]
        rw [hfin, hmm]
        refine ⟨rfl, ?_⟩
        show Inv xs ys _ (CurPos.onRow a)
        exact Inv.onNext _ a rfl rfl (Or.inl rfl) ⟨rfl, rfl⟩ ⟨rfl, rfl⟩
      · rcases Nat.lt_or_ge a b with hlt | hge
        · have hfin : finish .next
              ⟨urw, us1, us2, some a, some b, upd, mkPosN (some a),
               mkPosN (some b)⟩ =
              (some a, ⟨false, true, false, some a, some b, .next,
                        mkPosN (some a), mkPosN (some b)⟩) := by
            simp only [finish]
            rw [if_neg hab, if_pos]
            simpa using hlt
          have hmm : omin (some a) (some b) = some a := by
            simp only [omin]
            congr 1
            omega
          rw [hfin, hmm]
          refine ⟨rfl, ?_⟩
          show Inv xs ys _ (CurPos.onRow a)
          apply Inv.onNext _ a rfl rfl (Or.inl rfl)
          · exact ⟨rfl, rfl⟩
          · show SideN ys false (some b) (mkPosN (some b)) a
            obtain ⟨hstep, hnmem⟩ := nextInO_step ys hy f a b hb hlt
              (nextInO_mem xs f a ha).2
            exact ⟨hnmem, hstep.symm, by rw [hstep]⟩
        · have hblt : b < a := by omega
          have hfin : finish .next
              ⟨urw, us1, us2, some a, some b, upd, mkPosN (some a),
               mkPosN (some b)⟩ =
              (some b, ⟨false, false, true, some a, some b, .next,
                        mkPosN (some a), mkPosN (some b)⟩) := by
            simp only [finish]
            rw [if_neg hab, if_neg]
            simp only [decide_eq_true_eq]
            omega
          have hmm : omin (some a) (some b) = some b := by
            simp only [omin]
            congr 1
            omega
          rw [hfin, hmm]
          refine ⟨rfl, ?_⟩
          show Inv xs ys _ (CurPos.onRow b)
          apply Inv.onNext _ b rfl rfl (Or.inr rfl)
          · show SideN xs false (some a) (mkPosN (some a)) b
            obtain ⟨hstep, hnmem⟩ := nextInO_step xs hx f b a ha hblt
              (nextInO_mem ys f b hb).2
            exact ⟨hnmem, hstep.symm, by rw [hstep]⟩
          · exact ⟨rfl, rfl⟩

/-- Combine step, backward: if after the refill both rows hold the last key of
their source below the frontier `f`, then `finish .prev` emits the last key of
the merged list below `f` and re-establishes the invariant. -/
theorem finishPrev (xs ys : List Nat) (hx : List.Chain' (· < ·) xs)
    (hy : List.Chain' (· < ·) ys) (f : Option Nat) (u : UState)
    (h1 : u.row1 = prevInO xs f) (h2 : u.row2 = prevInO ys f)
    (hp1 : u.p1 = mkPosP u.row1) (hp2 : u.p2 = mkPosP u.row2) :
    (finish .prev u).1 = prevInO (mergeU xs ys) f ∧
    Inv xs ys (finish .prev u).2 (mkPosP (prevInO (mergeU xs ys) f)) := by
  obtain ⟨urw, us1, us2, ur1, ur2, upd, up1, up2⟩ := u
  simp only at h1 h2 hp1 hp2
  subst h1 h2 hp1 hp2
  rw [prevInO_mergeU xs ys hx hy f]
  cases ha : prevInO xs f with
  | none =>
    cases hb : prevInO ys f with
    | none =>
      refine ⟨rfl, ?_⟩
      exact Inv.startPrev _ rfl rfl rfl rfl rfl rfl rfl rfl
    | some b =>
      refine ⟨rfl, ?_⟩
      show Inv xs ys _ (CurPos.onRow b)
      apply Inv.onPrev _ b rfl rfl (Or.inr rfl)
      · show SideP xs false none (mkPosP none) b
        obtain ⟨hnone, hnmem⟩ := prevInO_none_below xs f b ha
          (prevInO_mem ys f b hb).2
        exact ⟨hnmem, hnone.symm, by rw [hnone]⟩
      · exact ⟨rfl, rfl⟩
  | some a =>
    cases hb : prevInO ys f with
    | none =>
      refine ⟨rfl, ?_⟩
      show Inv xs ys _ (CurPos.onRow a)
      apply Inv.onPrev _ a rfl rfl (Or.inl rfl)
      · exact ⟨rfl, rfl⟩
      · show SideP ys false none (mkPosP none) a
        obtain ⟨hnone, hnmem⟩ := prevInO_none_below ys f a hb
          (prevInO_mem xs f a ha).2
        exact ⟨hnmem, hnone.symm, by rw [hnone]⟩
    | some b =>
      by_cases hab : a = b
      · subst hab
        have hfin : finish .prev
            ⟨urw, us1, us2, some a, some a, upd, mkPosP (some a),
             mkPosP (some a)⟩ =
            (some a, ⟨false, true, true, some a, some a, .prev,
                      mkPosP (some a), mkPosP (some a)⟩) := by
          simp [finish]
        have hmm : omax (some a) (some a) = some a := by
          simp [omax]
        rw [hfin, hmm]
        refine ⟨rfl, ?_⟩
        show Inv xs ys _ (CurPos.onRow a)
        exact Inv.onPrev _ a rfl rfl (Or.inl rfl) ⟨rfl, rfl⟩ ⟨rfl, rfl⟩
      · rcases Nat.lt_or_ge b a with hlt | hge
        · have hfin : finish .prev
              ⟨urw, us1, us2, some a, some b, upd, mkPosP (some a),
               mkPosP (some b)⟩ =
              (some a, ⟨false, true, false, some a, some b, .prev,
                        mkPosP (some a), mkPosP (some b)⟩) := by
            simp only [finish]
            rw [if_neg hab, if_pos]
            simpa using hlt
          have hmm : omax (some a) (some b) = some a := by
            simp only [omax]
            congr 1
            omega
          rw [hfin, hmm]
          refine ⟨rfl, ?_⟩
          show Inv xs ys _ (CurPos.onRow a)
          apply Inv.onPrev _ a rfl rfl (Or.inl rfl)
          · exact ⟨rfl, rfl⟩
          · show SideP ys false (some b) (mkPosP (some b)) a
            obtain ⟨hstep, hnmem⟩ := prevInO_step ys hy f a b hb hlt
              (prevInO_mem xs f a ha).2
            exact ⟨hnmem, hstep.symm, by rw [hstep]⟩
        · have hblt : a < b := by omega
          have hfin : finish .prev
              ⟨urw, us1, us2, some a, some b, upd, mkPosP (some a),
               mkPosP (some b)⟩ =
              (some b, ⟨false, false, true, some a, some b, .prev,
                        mkPosP (some a), mkPosP (some b)⟩) := by
            simp only [finish]
            rw [if_neg hab, if_neg]
            simp only [decide_eq_true_eq]
            omega
          have hmm : omax (some a) (some b) = some b := by
            simp only [omax]
            congr 1
            omega
          rw [hfin, hmm]
          refine ⟨rfl, ?_⟩
          show Inv xs ys _ (CurPos.onRow b)
          apply Inv.onPrev _ b rfl rfl (Or.inr rfl)
          · show SideP xs false (some a) (mkPosP (some a)) b
            obtain ⟨hstep, hnmem⟩ := prevInO_step xs hx f b a ha hblt
              (prevInO_mem ys f b hb).2
            exact ⟨hnmem, hstep.symm, by rw [hstep]⟩
          · exact ⟨rfl, rfl⟩

/-- One `getMerge` call preserves the simulation invariant and emits exactly
what the logical cursor over the merged list emits. -/
theorem stepInv (xs ys : List Nat) (hx : List.Chain' (· < ·) xs)
    (hy : List.Chain' (· < ·) ys) (d : Dir) (u : UState) (c : CurPos)
    (hinv : Inv xs ys u c) :
    (getMerge xs ys d u).1 = (curGet (mergeU xs ys) d c).1 ∧
    Inv xs ys (getMerge xs ys d u).2 (curGet (mergeU xs ys) d c).2 := by
  cases hinv with
  | rewound hrw hp1 hp2 =>
    obtain ⟨urw, us1, us2, ur1, ur2, upd, up1, up2⟩ := u
    simp only at hrw hp1 hp2
    subst hrw hp1 hp2
    cases d with
    | next =>
      have hrefill : refill xs ys .next
          ⟨true, us1, us2, ur1, ur2, upd, .rewound, .rewound⟩ =
          ⟨true, us1, us2, xs.head?, ys.head?, upd, mkPosN xs.head?,
           mkPosN ys.head?⟩ := by
        simp [refill, get1, get2, curGet, stepNext]
      simp only [getMerge]
      rw [hrefill]
      exact finishNext xs ys hx hy none _ rfl rfl rfl rfl
    | prev =>
      have hrefill : refill xs ys .prev
          ⟨true, us1, us2, ur1, ur2, upd, .rewound, .rewound⟩ =
          ⟨true, us1, us2, xs.getLast?, ys.getLast?, upd,
           mkPosP xs.getLast?, mkPosP ys.getLast?⟩ := by
        simp [refill, get1, get2, curGet, stepPrev]
      simp only [getMerge]
      rw [hrefill]
      exact finishPrev xs ys hx hy none _ rfl rfl rfl rfl
  | onNext r hrw hd hsrc h1 h2 =>
    obtain ⟨urw, us1, us2, ur1, ur2, upd, up1, up2⟩ := u
    simp only at hrw hd hsrc h1 h2
    subst hrw hd
    cases us1 with
    | true =>
      obtain ⟨hr1, hq1⟩ := (h1 : ur1 = some r ∧ up1 = CurPos.onRow r)
      subst hr1 hq1
      cases us2 with
      | true =>
        obtain ⟨hr2, hq2⟩ := (h2 : ur2 = some r ∧ up2 = CurPos.onRow r)
        subst hr2 hq2
        cases d with
        | next =>
          have hrefill : refill xs ys .next
              ⟨false, true, true, some r, some r, .next, .onRow r,
               .onRow r⟩ =
              ⟨false, true, true, nextIn xs r, nextIn ys r, .next,
               mkPosN (nextIn xs r), mkPosN (nextIn ys r)⟩ := by
            simp [refill, get1, get2, curGet, stepNext]
          simp only [getMerge]
          rw [hrefill]
          exact finishNext xs ys hx hy (some r) _ rfl rfl rfl rfl
        | prev =>
          have hrefill : refill xs ys .prev
              ⟨false, true, true, some r, some r, .next, .onRow r,
               .onRow r⟩ =
              ⟨false, true, true, prevIn xs r, prevIn ys r, .next,
               mkPosP (prevIn xs r), mkPosP (prevIn ys r)⟩ := by
            simp [refill, get1, get2, curGet, stepPrev]
          simp only [getMerge]
          rw [hrefill]
          exact finishPrev xs ys hx hy (some r) _ rfl rfl rfl rfl
      | false =>
        obtain ⟨hnr, hr2, hq2⟩ :=
          (h2 : r ∉ ys ∧ ur2 = nextIn ys r ∧ up2 = mkPosN (nextIn ys r))
        subst hr2 hq2
        cases d with
        | next =>
          have hrefill : refill xs ys .next
              ⟨false, true, false, some r, nextIn ys r, .next, .onRow r,
               mkPosN (nextIn ys r)⟩ =
              ⟨false, true, false, nextIn xs r, nextIn ys r, .next,
               mkPosN (nextIn xs r), mkPosN (nextIn ys r)⟩ := by
            simp [refill, get1, curGet, stepNext]
          simp only [getMerge]
          rw [hrefill]
          exact finishNext xs ys hx hy (some r) _ rfl rfl rfl rfl
        | prev =>
          cases he : nextIn ys r with
          | some e =>
            have hrefill : refill xs ys .prev
                ⟨false, true, false, some r, some e, .next, .onRow r,
                 mkPosN (some e)⟩ =
                ⟨false, true, false, prevIn xs r, prevIn ys e, .next,
                 mkPosP (prevIn xs r), mkPosP (prevIn ys e)⟩ := by
              simp [refill, get1, get2, curGet, stepPrev, mkPosN]
            simp only [getMerge]
            rw [hrefill]
            exact finishPrev xs ys hx hy (some r) _ rfl
              (prevIn_of_nextIn ys hy r e hnr he) rfl rfl
          | none =>
            have hrefill : refill xs ys .prev
                ⟨false, true, false, some r, none, .next, .onRow r,
                 mkPosN none⟩ =
                ⟨false, true, false, prevIn xs r, ys.getLast?, .next,
                 mkPosP (prevIn xs r), mkPosP ys.getLast?⟩ := by
              simp [refill, get1, get2, curGet, stepPrev, mkPosN]
            simp only [getMerge]
            rw [hrefill]
            exact finishPrev xs ys hx hy (some r) _ rfl
              (prevIn_of_nextIn_none ys r he hnr).symm rfl rfl
    | false =>
      have hus2 : us2 = true := by
        rcases hsrc with h | h
        · cases h
        · exact h
      subst hus2
      obtain ⟨hnr, hr1, hq1⟩ :=
        (h1 : r ∉ xs ∧ ur1 = nextIn xs r ∧ up1 = mkPosN (nextIn xs r))
      subst hr1 hq1
      obtain ⟨hr2, hq2⟩ := (h2 : ur2 = some r ∧ up2 = CurPos.onRow r)
      subst hr2 hq2
      cases d with
      | next =>
        have hrefill : refill xs ys .next
            ⟨false, false, true, nextIn xs r, some r, .next,
             mkPosN (nextIn xs r), .onRow r⟩ =
            ⟨false, false, true, nextIn xs r, nextIn ys r, .next,
             mkPosN (nextIn xs r), mkPosN (nextIn ys r)⟩ := by
          simp [refill, get2, curGet, stepNext]
        simp only [getMerge]
        rw [hrefill]
        exact finishNext xs ys hx hy (some r) _ rfl rfl rfl rfl
      | prev =>
        cases he : nextIn xs r with
        | some e =>
          have hrefill : refill xs ys .prev
              ⟨false, false, true, some e, some r, .next, mkPosN (some e),
               .onRow r⟩ =
              ⟨false, false, true, prevIn xs e, prevIn ys r, .next,
               mkPosP (prevIn xs e), mkPosP (prevIn ys r)⟩ := by
            simp [refill, get1, get2, curGet, stepPrev, mkPosN]
          simp only [getMerge]
          rw [hrefill]
          exact finishPrev xs ys hx hy (some r) _
            (prevIn_of_nextIn xs hx r e hnr he) rfl rfl rfl
        | none =>
          have hrefill : refill xs ys .prev
              ⟨false, false, true, none, some r, .next, mkPosN none,
               .onRow r⟩ =
              ⟨false, false, true, xs.getLast?, prevIn ys r, .next,
               mkPosP xs.getLast?, mkPosP (prevIn ys r)⟩ := by
            simp [refill, get1, get2, curGet, stepPrev, mkPosN]
          simp only [getMerge]
          rw [hrefill]
          exact finishPrev xs ys hx hy (some r) _
            (prevIn_of_nextIn_none xs r he hnr).symm rfl rfl rfl
  | onPrev r hrw hd hsrc h1 h2 =>
    obtain ⟨urw, us1, us2, ur1, ur2, upd, up1, up2⟩ := u
    simp only at hrw hd hsrc h1 h2
    subst hrw hd
    cases us1 with
    | true =>
      obtain ⟨hr1, hq1⟩ := (h1 : ur1 = some r ∧ up1 = CurPos.onRow r)
      subst hr1 hq1
      cases us2 with
      | true =>
        obtain ⟨hr2, hq2⟩ := (h2 : ur2 = some r ∧ up2 = CurPos.onRow r)
        subst hr2 hq2
        cases d with
        | prev =>
          have hrefill : refill xs ys .prev
              ⟨false, true, true, some r, some r, .prev, .onRow r,
               .onRow r⟩ =
              ⟨false, true, true, prevIn xs r, prevIn ys r, .prev,
               mkPosP (prevIn xs r), mkPosP (prevIn ys r)⟩ := by
            simp [refill, get1, get2, curGet, stepPrev]
          simp only [getMerge]
          rw [hrefill]
          exact finishPrev xs ys hx hy (some r) _ rfl rfl rfl rfl
        | next =>
          have hrefill : refill xs ys .next
              ⟨false, true, true, some r, some r, .prev, .onRow r,
               .onRow r⟩ =
              ⟨false, true, true, nextIn xs r, nextIn ys r, .prev,
               mkPosN (nextIn xs r), mkPosN (nextIn ys r)⟩ := by
            simp [refill, get1, get2, curGet, stepNext]
          simp only [getMerge]
          rw [hrefill]
          exact finishNext xs ys hx hy (some r) _ rfl rfl rfl rfl
      | false =>
        obtain ⟨hnr, hr2, hq2⟩ :=
          (h2 : r ∉ ys ∧ ur2 = prevIn ys r ∧ up2 = mkPosP (prevIn ys r))
        subst hr2 hq2
        cases d with
        | prev =>
          have hrefill : refill xs ys .prev
              ⟨false, true, false, some r, prevIn ys r, .prev, .onRow r,
               mkPosP (prevIn ys r)⟩ =
              ⟨false, true, false, prevIn xs r, prevIn ys r, .prev,
               mkPosP (prevIn xs r), mkPosP (prevIn ys r)⟩ := by
            simp [refill, get1, curGet, stepPrev]
          simp only [getMerge]
          rw [hrefill]
          exact finishPrev xs ys hx hy (some r) _ rfl rfl rfl rfl
        | next =>
          cases he : prevIn ys r with
          | some e =>
            have hrefill : refill xs ys .next
                ⟨false, true, false, some r, some e, .prev, .onRow r,
                 mkPosP (some e)⟩ =
                ⟨false, true, false, nextIn xs r, nextIn ys e, .prev,
                 mkPosN (nextIn xs r), mkPosN (nextIn ys e)⟩ := by
              simp [refill, get1, get2, curGet, stepNext, mkPosP]
            simp only [getMerge]
            rw [hrefill]
            exact finishNext xs ys hx hy (some r) _ rfl
              (nextIn_of_prevIn ys hy r e hnr he) rfl rfl
          | none =>
            have hrefill : refill xs ys .next
                ⟨false, true, false, some r, none, .prev, .onRow r,
                 mkPosP none⟩ =
                ⟨false, true, false, nextIn xs r, ys.head?, .prev,
                 mkPosN (nextIn xs r), mkPosN ys.head?⟩ := by
              simp [refill, get1, get2, curGet, stepNext, mkPosP]
            simp only [getMerge]
            rw [hrefill]
            exact finishNext xs ys hx hy (some r) _ rfl
              (nextIn_of_prevIn_none ys r he hnr).symm rfl rfl
    | false =>
      have hus2 : us2 = true := by
        rcases hsrc with h | h
        · cases h
        · exact h
      subst hus2
      obtain ⟨hnr, hr1, hq1⟩ :=
        (h1 : r ∉ xs ∧ ur1 = prevIn xs r ∧ up1 = mkPosP (prevIn xs r))
      subst hr1 hq1
      obtain ⟨hr2, hq2⟩ := (h2 : ur2 = some r ∧ up2 = CurPos.onRow r)
      subst hr2 hq2
      cases d with
      | prev =>
        have hrefill : refill xs ys .prev
            ⟨false, false, true, prevIn xs r, some r, .prev,
             mkPosP (prevIn xs r), .onRow r⟩ =
            ⟨false, false, true, prevIn xs r, prevIn ys r, .prev,
             mkPosP (prevIn xs r), mkPosP (prevIn ys r)⟩ := by
          simp [refill, get2, curGet, stepPrev]
        simp only [getMerge]
        rw [hrefill]
        exact finishPrev xs ys hx hy (some r) _ rfl rfl rfl rfl
      | next =>
        cases he : prevIn xs r with
        | some e =>
          have hrefill : refill xs ys .next
              ⟨false, false, true, some e, some r, .prev, mkPosP (some e),
               .onRow r⟩ =
              ⟨false, false, true, nextIn xs e, nextIn ys r, .prev,
               mkPosN (nextIn xs e), mkPosN (nextIn ys r)⟩ := by
            simp [refill, get1, get2, curGet, stepNext, mkPosP]
          simp only [getMerge]
          rw [hrefill]
          exact finishNext xs ys hx hy (some r) _
            (nextIn_of_prevIn xs hx r e hnr he) rfl rfl rfl
        | none =>
          have hrefill : refill xs ys .next
              ⟨false, false, true, none, some r, .prev, mkPosP none,
               .onRow r⟩ =
              ⟨false, false, true, xs.head?, nextIn ys r, .prev,
               mkPosN xs.head?, mkPosN (nextIn ys r)⟩ := by
            simp [refill, get1, get2, curGet, stepNext, mkPosP]
          simp only [getMerge]
          rw [hrefill]
          exact finishNext xs ys hx hy (some r) _
            (nextIn_of_prevIn_none xs r he hnr).symm rfl rfl rfl
  | endNext hrw hd hs1 hs2 hr1 hr2 hp1 hp2 =>
    obtain ⟨urw, us1, us2, ur1, ur2, upd, up1, up2⟩ := u
    simp only at hrw hd hs1 hs2 hr1 hr2 hp1 hp2
    subst hrw hd hs1 hs2 hr1 hr2 hp1 hp2
    cases d with
    | next =>
      refine ⟨rfl, ?_⟩
      exact Inv.endNext _ rfl rfl rfl rfl rfl rfl rfl rfl
    | prev =>
      have hrefill : refill xs ys .prev
          ⟨false, true, true, none, none, .next, .atEnd, .atEnd⟩ =
          ⟨false, true, true, xs.getLast?, ys.getLast?, .next,
           mkPosP xs.getLast?, mkPosP ys.getLast?⟩ := by
        simp [refill, get1, get2, curGet, stepPrev]
      simp only [getMerge]
      rw [hrefill]
      exact finishPrev xs ys hx hy none _ rfl rfl rfl rfl
  | startPrev hrw hd hs1 hs2 hr1 hr2 hp1 hp2 =>
    obtain ⟨urw, us1, us2, ur1, ur2, upd, up1, up2⟩ := u
    simp only at hrw hd hs1 hs2 hr1 hr2 hp1 hp2
    subst hrw hd hs1 hs2 hr1 hr2 hp1 hp2
    cases d with
    | prev =>
      refine ⟨rfl, ?_⟩
      exact Inv.startPrev _ rfl rfl rfl rfl rfl rfl rfl rfl
    | next =>
      have hrefill : refill xs ys .next
          ⟨false, true, true, none, none, .prev, .atStart, .atStart⟩ =
          ⟨false, true, true, xs.head?, ys.head?, .prev,
           mkPosN xs.head?, mkPosN ys.head?⟩ := by
        simp [refill, get1, get2, curGet, stepNext]
      simp only [getMerge]
      rw [hrefill]
      exact finishNext xs ys hx hy none _ rfl rfl rfl rfl

/-- Any run of `getMerge` calls from an invariant-related pair produces the
outputs of the logical cursor over the merged list. -/
theorem runImpl_spec (xs ys : List Nat) (hx : List.Chain' (· < ·) xs)
    (hy : List.Chain' (· < ·) ys) :
    ∀ (ds : List Dir) (u : UState) (c : CurPos), Inv xs ys u c →
      runImpl xs ys ds u = runSpec (mergeU xs ys) ds c
  | [], _, _, _ => rfl
  | d :: ds, u, c, hinv => by
    obtain ⟨ho, hi⟩ := stepInv xs ys hx hy d u c hinv
    simp only [runImpl, runSpec]
    rw [ho]
    exact congrArg _ (runImpl_spec xs ys hx hy ds _ _ hi)

/-- C2: for every union-merge iterator over two key-ordered duplicate-free
sources and every interleaving of Get(Next)/Get(Prev) calls, the sequence of
reported rows equals that of a logical bidirectional cursor over the
duplicate-free ordered union of the two sources (a row present in both
sources is reported once); in particular, a direction reversal right after
reporting row `r` skips exactly `r` — no duplicate row and no gap. -/
theorem getMerge_refines (xs ys : List Nat) (hx : List.Chain' (· < ·) xs)
    (hy : List.Chain' (· < ·) ys) (ds : List Dir) :
    runImpl xs ys ds initU = runSpec (mergeU xs ys) ds CurPos.rewound :=
  runImpl_spec xs ys hx hy ds initU CurPos.rewound
    (Inv.rewound _ rfl rfl rfl)

/-- The refinement theorem applied to the sorted key sets of the Go test
`TestUnion_MergeSwitchDir` and a direction sequence with two reversals. -/
theorem getMerge_refines_witness :
    List.Chain' (· < ·) [1, 4, 6, 7] ∧
    List.Chain' (· < ·) [2, 3, 4, 5, 8, 9] ∧
    runImpl [1, 4, 6, 7] [2, 3, 4, 5, 8, 9]
        [.next, .next, .next, .prev, .prev, .next] initU =
      runSpec (mergeU [1, 4, 6, 7] [2, 3, 4, 5, 8, 9])
        [.next, .next, .next, .prev, .prev, .next] CurPos.rewound :=
  ⟨by simp, by simp,
   getMerge_refines [1, 4, 6, 7] [2, 3, 4, 5, 8, 9] (by simp) (by simp)
     [.next, .next, .next, .prev, .prev, .next]⟩

end UnionMerge

end GS
